import Mathlib

/-!
Verification development for the FIRRTL `InferResets` pass
(`lib/Dialect/FIRRTL/Transforms/InferResets.cpp`).

The pass has two phases:
* Phase I infers concrete reset types: it traces drives between values of
  abstract `reset` type into reset networks (`ResetMap`), votes per network
  on sync (`uint<1>`) versus async (`asyncreset`), and rewrites the types.
* Phase II builds full-async-reset domains from annotations, plans how each
  module obtains its reset (local value, existing port, or a fresh port),
  and rewrites the register operations.

This file shallowly embeds the data structures and algorithms of the pass
and proves / refutes the specification's claims about them.
-/

set_option linter.unusedVariables false

namespace InferResets

/-! ## FIRRTL types

The pass works on FIRRTL types: ground types (`uint`, `sint`, `clock`,
`asyncreset`, the abstract `reset`, `analog`) and the aggregates `bundle`
and `vector`.  Bundle elements carry a name and a flip flag.
-/

/-- FIRRTL types, as the pass observes them through the type-system API. -/
inductive FTy where
  | uint (width : Nat)
  | sint (width : Nat)
  | clock
  | asyncReset
  | reset
  | analog
  | bundle (elems : List (String × Bool × FTy))
  | vector (elem : FTy) (len : Nat)

mutual

/-- Boolean structural equality on FIRRTL types. -/
def FTy.beq : FTy → FTy → Bool
  | .uint w, .uint w' => w == w'
  | .sint w, .sint w' => w == w'
  | .clock, .clock => true
  | .asyncReset, .asyncReset => true
  | .reset, .reset => true
  | .analog, .analog => true
  | .bundle es, .bundle es' => FTy.beqList es es'
  | .vector e n, .vector e' n' => FTy.beq e e' && n == n'
  | _, _ => false

/-- Boolean equality on bundle element lists. -/
def FTy.beqList : List (String × Bool × FTy) → List (String × Bool × FTy) → Bool
  | [], [] => true
  | e :: es, f :: fs =>
      e.1 == f.1 && e.2.1 == f.2.1 && FTy.beq e.2.2 f.2.2 && FTy.beqList es fs
  | _, _ => false

end

mutual

theorem FTy.beq_iff : ∀ (a b : FTy), (FTy.beq a b = true) ↔ a = b
  | .uint w, b => by cases b <;> simp [FTy.beq]
  | .sint w, b => by cases b <;> simp [FTy.beq]
  | .clock, b => by cases b <;> simp [FTy.beq]
  | .asyncReset, b => by cases b <;> simp [FTy.beq]
  | .reset, b => by cases b <;> simp [FTy.beq]
  | .analog, b => by cases b <;> simp [FTy.beq]
  | .bundle es, b => by
      cases b <;> simp [FTy.beq]
      rename_i es'
      exact FTy.beqList_iff es es'
  | .vector e n, b => by
      cases b <;> simp [FTy.beq]
      rename_i e' n'
      rw [FTy.beq_iff e e']
      tauto

theorem FTy.beqList_iff : ∀ (a b : List (String × Bool × FTy)),
    (FTy.beqList a b = true) ↔ a = b
  | [], [] => by simp [FTy.beqList]
  | [], f :: fs => by simp [FTy.beqList]
  | e :: es, [] => by simp [FTy.beqList]
  | e :: es, f :: fs => by
      simp [FTy.beqList, FTy.beq_iff e.2.2 f.2.2, FTy.beqList_iff es fs, Prod.ext_iff]
      tauto

end

instance : DecidableEq FTy := fun a b => decidable_of_iff (FTy.beq a b = true) (FTy.beq_iff a b)

/-- Whether a type is a ground (non-aggregate) type. -/
def FTy.isGround : FTy → Bool
  | .bundle _ => false
  | .vector _ _ => false
  | _ => true

/-- Modelled from the spec: a "reset-type" is abstract reset, sync reset
    (1-bit unsigned) or async reset (§4.3 of the spec; the underlying
    `FIRRTLType::isResetType` lives outside the pass source). -/
def FTy.isResetType : FTy → Bool
  | .reset => true
  | .asyncReset => true
  | .uint 1 => true
  | _ => false

mutual

/-- Modelled from the spec: the flat field-id numbering for aggregates
    (§3 "Field reference").  Field id 0 is the value itself; element `i` of a
    bundle occupies the id range `[getFieldID i, getFieldID i + maxFieldID tᵢ]`
    and the elements of a vector are numbered alike. -/
def maxFieldID : FTy → Nat
  | .bundle elems => maxFieldIDList elems
  | .vector elem len => len * (1 + maxFieldID elem)
  | _ => 0

/-- Total number of field ids contributed by a list of bundle elements. -/
def maxFieldIDList : List (String × Bool × FTy) → Nat
  | [] => 0
  | e :: es => (1 + maxFieldID e.2.2) + maxFieldIDList es

end

/-- Field id of bundle element `i` (1 for element 0, then each element
    advances by `1 + maxFieldID` of the previous element). -/
def bundleFieldID : List (String × Bool × FTy) → Nat → Nat
  | _, 0 => 1
  | [], _ + 1 => 1
  | e :: es, i + 1 => (1 + maxFieldID e.2.2) + bundleFieldID es i

/-- Field id of vector element `i`. -/
def vectorFieldID (elem : FTy) (i : Nat) : Nat :=
  1 + i * (1 + maxFieldID elem)

mutual

/-- Whether a field id addresses a ground leaf of a type (used as the
    well-formedness condition on traced field references). -/
def validLeafID : FTy → Nat → Bool
  | .bundle elems, fid => if fid = 0 then false else validLeafIDList elems fid
  | .vector elem len, fid =>
      if fid = 0 then false
      else decide ((fid - 1) / (1 + maxFieldID elem) < len) &&
        validLeafID elem ((fid - 1) % (1 + maxFieldID elem))
  | _, fid => fid = 0

/-- `validLeafID` on the elements of a bundle; `fid` is relative to the
    first element's base id. -/
def validLeafIDList : List (String × Bool × FTy) → Nat → Bool
  | [], _ => false
  | e :: es, fid =>
      if fid ≤ 1 + maxFieldID e.2.2 then validLeafID e.2.2 (fid - 1)
      else validLeafIDList es (fid - (1 + maxFieldID e.2.2))

end

mutual

/-- The ground leaf type a field id addresses within a type (the observer
    used to state what the type-update code changes). -/
def leafTypeAt : FTy → Nat → FTy
  | .bundle elems, fid => if fid = 0 then .bundle elems else leafTypeAtList elems fid
  | .vector elem len, fid =>
      if fid = 0 then .vector elem len
      else leafTypeAt elem ((fid - 1) % (1 + maxFieldID elem))
  | t, _ => t

/-- `leafTypeAt` on bundle elements; out-of-range ids return the abstract
    reset type (irrelevant: theorems restrict to valid ids). -/
def leafTypeAtList : List (String × Bool × FTy) → Nat → FTy
  | [], _ => .reset
  | e :: es, fid =>
      if fid ≤ 1 + maxFieldID e.2.2 then leafTypeAt e.2.2 (fid - 1)
      else leafTypeAtList es (fid - (1 + maxFieldID e.2.2))

end

mutual

/-- `updateType` from InferResets.cpp: replace the leaf at `fid` within
    `oldType` by `fieldType`.  The external `getIndexForFieldID` /
    `getFieldID` arithmetic of the source is inlined into the recursion over
    the bundle elements (spec §3 flat numbering); for a vector the element
    type is rewritten at the id relative to the selected element, which
    deliberately retypes all elements alike. -/
def updateType : FTy → Nat → FTy → FTy
  | .bundle elems, fid, ft => .bundle (updateTypeList elems fid ft)
  | .vector elem len, fid, ft =>
      .vector (updateType elem ((fid - 1) % (1 + maxFieldID elem)) ft) len
  | _, _, ft => ft

/-- `updateType` descending into the elements of a bundle. -/
def updateTypeList : List (String × Bool × FTy) → Nat → FTy → List (String × Bool × FTy)
  | [], _, _ => []
  | e :: es, fid, ft =>
      if fid ≤ 1 + maxFieldID e.2.2 then (e.1, e.2.1, updateType e.2.2 (fid - 1) ft) :: es
      else e :: updateTypeList es (fid - (1 + maxFieldID e.2.2)) ft

end

mutual

theorem leafTypeAt_updateType : ∀ (t : FTy) (fid : Nat) (c : FTy),
    validLeafID t fid = true → c.isGround = true →
    leafTypeAt (updateType t fid c) fid = c
  | .bundle elems, fid, c, hv, hc => by
      unfold validLeafID at hv
      by_cases h0 : fid = 0
      · simp [h0] at hv
      · unfold updateType leafTypeAt
        simp only [h0, if_false]
        exact leafTypeAtList_updateTypeList elems fid c (by simpa [h0] using hv) hc
  | .vector elem len, fid, c, hv, hc => by
      unfold validLeafID at hv
      by_cases h0 : fid = 0
      · simp [h0] at hv
      · unfold updateType leafTypeAt
        simp only [h0, if_false]
        have hmax : maxFieldID (updateType elem ((fid - 1) % (1 + maxFieldID elem)) c)
            = maxFieldID elem :=
          maxFieldID_updateType elem _ c hc
        rw [hmax]
        exact leafTypeAt_updateType elem ((fid - 1) % (1 + maxFieldID elem)) c
          (by simp [h0] at hv; exact hv.2) hc
  | .uint w, fid, c, hv, hc => by
      unfold validLeafID at hv
      cases c <;> simp_all [updateType, leafTypeAt, FTy.isGround]
  | .sint w, fid, c, hv, hc => by
      unfold validLeafID at hv
      cases c <;> simp_all [updateType, leafTypeAt, FTy.isGround]
  | .clock, fid, c, hv, hc => by
      unfold validLeafID at hv
      cases c <;> simp_all [updateType, leafTypeAt, FTy.isGround]
  | .asyncReset, fid, c, hv, hc => by
      unfold validLeafID at hv
      cases c <;> simp_all [updateType, leafTypeAt, FTy.isGround]
  | .reset, fid, c, hv, hc => by
      unfold validLeafID at hv
      cases c <;> simp_all [updateType, leafTypeAt, FTy.isGround]
  | .analog, fid, c, hv, hc => by
      unfold validLeafID at hv
      cases c <;> simp_all [updateType, leafTypeAt, FTy.isGround]

theorem leafTypeAtList_updateTypeList : ∀ (elems : List (String × Bool × FTy)) (fid : Nat) (c : FTy),
    validLeafIDList elems fid = true → c.isGround = true →
    leafTypeAtList (updateTypeList elems fid c) fid = c
  | [], fid, c, hv, hc => by simp [validLeafIDList] at hv
  | e :: es, fid, c, hv, hc => by
      unfold validLeafIDList at hv
      by_cases h : fid ≤ 1 + maxFieldID e.2.2
      · simp only [h, if_true] at hv
        unfold updateTypeList leafTypeAtList
        have hmax : maxFieldID (updateType e.2.2 (fid - 1) c) = maxFieldID e.2.2 :=
          maxFieldID_updateType e.2.2 (fid - 1) c hc
        simp only [h, if_true, hmax]
        exact leafTypeAt_updateType e.2.2 (fid - 1) c hv hc
      · simp only [h, if_false] at hv
        unfold updateTypeList leafTypeAtList
        have hmax : maxFieldID e.2.2 = maxFieldID e.2.2 := rfl
        simp only [h, if_false]
        exact leafTypeAtList_updateTypeList es (fid - (1 + maxFieldID e.2.2)) c hv hc

theorem maxFieldID_updateType : ∀ (t : FTy) (fid : Nat) (c : FTy),
    c.isGround = true → maxFieldID (updateType t fid c) = maxFieldID t
  | .bundle elems, fid, c, hc => by
      unfold updateType maxFieldID
      exact maxFieldIDList_updateTypeList elems fid c hc
  | .vector elem len, fid, c, hc => by
      unfold updateType maxFieldID
      rw [maxFieldID_updateType elem _ c hc]
  | .uint w, fid, c, hc => by cases c <;> simp_all [updateType, maxFieldID, FTy.isGround]
  | .sint w, fid, c, hc => by cases c <;> simp_all [updateType, maxFieldID, FTy.isGround]
  | .clock, fid, c, hc => by cases c <;> simp_all [updateType, maxFieldID, FTy.isGround]
  | .asyncReset, fid, c, hc => by cases c <;> simp_all [updateType, maxFieldID, FTy.isGround]
  | .reset, fid, c, hc => by cases c <;> simp_all [updateType, maxFieldID, FTy.isGround]
  | .analog, fid, c, hc => by cases c <;> simp_all [updateType, maxFieldID, FTy.isGround]

theorem maxFieldIDList_updateTypeList : ∀ (elems : List (String × Bool × FTy)) (fid : Nat) (c : FTy),
    c.isGround = true → maxFieldIDList (updateTypeList elems fid c) = maxFieldIDList elems
  | [], fid, c, hc => rfl
  | e :: es, fid, c, hc => by
      unfold updateTypeList
      by_cases h : fid ≤ 1 + maxFieldID e.2.2
      · simp only [h, if_true]
        unfold maxFieldIDList
        rw [maxFieldID_updateType e.2.2 (fid - 1) c hc]
      · simp only [h, if_false]
        unfold maxFieldIDList
        rw [maxFieldIDList_updateTypeList es (fid - (1 + maxFieldID e.2.2)) c hc]

end

/-! ## The reset map (`ResetMap` in InferResets.cpp)

A `ResetNode` exists per observed `FieldRef`; each node points to the
`ResetNet` it belongs to.  `ResetNet`s are identified by ids (standing for
the C++ pointers); the state records, per live net, its node set
(insertion-ordered, as the `SmallSetVector`) and its drive list.  Abandoned
nets go to a free list (`unusedNets`) and are reused; the free-list stack is
modelled with its head as the top.
-/

/-- A field reference: (value id, field id). -/
abbrev FieldRef := Nat × Nat

/-- The kind of a reset net: `ResetKind` in InferResets.cpp. -/
inductive ResetKind where
  | uninferred
  | async
  | sync
deriving DecidableEq, Repr

/-- `ResetDrive`: the destination node, source node, and location of one
    recorded connection. -/
structure ResetDrive where
  dst : FieldRef
  src : FieldRef
  loc : Nat
deriving DecidableEq, Repr

/-- The state of `ResetMap`: created nodes with their types and net
    back-pointers, the live nets with their node sets, drives, and kinds,
    the free list, and an allocation counter. -/
structure ResetMap where
  nodeList : List FieldRef
  nodeType : FieldRef → FTy
  backptr : FieldRef → Option Nat
  live : List Nat
  netNodes : Nat → List FieldRef
  netDrives : Nat → List ResetDrive
  netKind : Nat → ResetKind
  unused : List Nat
  nextId : Nat

/-- The initial, empty reset map. -/
def ResetMap.empty : ResetMap :=
  { nodeList := []
    nodeType := fun _ => .reset
    backptr := fun _ => none
    live := []
    netNodes := fun _ => []
    netDrives := fun _ => []
    netKind := fun _ => .uninferred
    unused := []
    nextId := 0 }

/-- `ResetMap::getNode`: look up the node for a value, creating it (with no
    net) if it does not exist yet.  An existing node keeps its type. -/
def ResetMap.getNode (s : ResetMap) (value : FieldRef) (type : FTy) : ResetMap :=
  if value ∈ s.nodeList then s
  else
    { s with
      nodeList := value :: s.nodeList
      nodeType := Function.update s.nodeType value type
      backptr := Function.update s.backptr value none }

/-- `ResetMap::createNet`: pop a net from the free list if possible,
    otherwise allocate a fresh one; either way the net becomes live. -/
def ResetMap.createNet (s : ResetMap) : ResetMap × Nat :=
  match s.unused with
  | u :: rest => ({ s with unused := rest, live := s.live ++ [u] }, u)
  | [] =>
      ({ s with
         live := s.live ++ [s.nextId]
         netNodes := Function.update s.netNodes s.nextId []
         netDrives := Function.update s.netDrives s.nextId []
         netKind := Function.update s.netKind s.nextId .uninferred
         nextId := s.nextId + 1 }, s.nextId)

/-- `ResetMap::abandonNet`: clear the net, remove it from the live set and
    push it onto the free list. -/
def ResetMap.abandonNet (s : ResetMap) (n : Nat) : ResetMap :=
  { s with
    netNodes := Function.update s.netNodes n []
    netDrives := Function.update s.netDrives n []
    netKind := Function.update s.netKind n .uninferred
    live := s.live.filter (· ≠ n)
    unused := n :: s.unused }

/-- Insertion into a `SmallSetVector`: append unless present. -/
def svInsert {α : Type} [DecidableEq α] (x : α) (l : List α) : List α :=
  if x ∈ l then l else l ++ [x]

/-- Append the new drive record to net `n` (the final `push_back` of
    `ResetMap::add`). -/
def ResetMap.pushDrive (s : ResetMap) (n : Nat) (dst src : FieldRef) (loc : Nat) : ResetMap :=
  { s with netDrives := Function.update s.netDrives n (s.netDrives n ++ [⟨dst, src, loc⟩]) }

/-- The net-combination step of `ResetMap::add`, after both nodes exist:
    case on the two nodes' nets (fresh net / one-sided insert / same net /
    merge keeping the net with more nodes), and push one drive record.
    Returns the updated state and the net the drive was recorded on. -/
def ResetMap.addCore (s1 : ResetMap) (dst src : FieldRef) (loc : Nat) : ResetMap × Nat :=
  match s1.backptr dst, s1.backptr src with
  | none, none =>
      -- Add dst and src to a fresh new net.
      let p := s1.createNet
      let s2 := p.1
      let n := p.2
      let s3 :=
        { s2 with
          backptr := Function.update (Function.update s2.backptr dst (some n)) src (some n)
          netNodes := Function.update s2.netNodes n (svInsert src (svInsert dst (s2.netNodes n))) }
      (s3.pushDrive n dst src loc, n)
  | none, some n =>
      -- Add dst into src's existing net.
      let s3 :=
        { s1 with
          backptr := Function.update s1.backptr dst (some n)
          netNodes := Function.update s1.netNodes n (svInsert dst (s1.netNodes n)) }
      (s3.pushDrive n dst src loc, n)
  | some n, none =>
      -- Add src into dst's existing net.
      let s3 :=
        { s1 with
          backptr := Function.update s1.backptr src (some n)
          netNodes := Function.update s1.netNodes n (svInsert src (s1.netNodes n)) }
      (s3.pushDrive n dst src loc, n)
  | some nd, some ns =>
      if nd = ns then
        -- Both already in the same net (e.g. a redundant connect).
        (s1.pushDrive nd dst src loc, nd)
      else
        -- Keep the net with more nodes and migrate the other one into it.
        let win := if (s1.netNodes nd).length < (s1.netNodes ns).length then ns else nd
        let lose := if (s1.netNodes nd).length < (s1.netNodes ns).length then nd else ns
        let s2 :=
          { s1 with
            backptr := fun x => if x ∈ s1.netNodes lose then some win else s1.backptr x
            netNodes := Function.update s1.netNodes win
              ((s1.netNodes lose).foldl (fun acc x => svInsert x acc) (s1.netNodes win))
            netDrives := Function.update s1.netDrives win
              (s1.netDrives win ++ s1.netDrives lose) }
        let s3 := s2.abandonNet lose
        (s3.pushDrive win dst src loc, win)

/-- `ResetMap::add`: fetch/create the two nodes, then combine their nets
    and record the drive (`ResetMap.addCore`). -/
def ResetMap.addNet (s0 : ResetMap) (dst : FieldRef) (dstType : FTy) (src : FieldRef)
    (srcType : FTy) (loc : Nat) : ResetMap × Nat :=
  ResetMap.addCore ((s0.getNode dst dstType).getNode src srcType) dst src loc

/-- `ResetMap::add` (discarding the chosen net). -/
def ResetMap.add (s : ResetMap) (dst : FieldRef) (dstType : FTy) (src : FieldRef)
    (srcType : FTy) (loc : Nat) : ResetMap :=
  (s.addNet dst dstType src srcType loc).1

/-- One recorded `add` call. -/
structure AddOp where
  dst : FieldRef
  dstType : FTy
  src : FieldRef
  srcType : FTy
  loc : Nat

/-- Run a sequence of `add` calls on the initially empty map. -/
def runAdds (ops : List AddOp) : ResetMap :=
  ops.foldl (fun s op => s.add op.dst op.dstType op.src op.srcType op.loc) ResetMap.empty

/-- Well-formedness of a reset-map state: live and free nets are disjoint
    id sets below the allocation counter, free nets are cleared, node
    back-pointers and live net node sets agree, and node sets have no
    duplicates. -/
def ResetMap.WF (s : ResetMap) : Prop :=
  s.live.Nodup ∧
  s.unused.Nodup ∧
  (∀ n ∈ s.live, n ∉ s.unused) ∧
  (∀ n ∈ s.live, n < s.nextId) ∧
  (∀ n ∈ s.unused, n < s.nextId) ∧
  (∀ n ∈ s.unused, s.netNodes n = []) ∧
  (∀ n ∈ s.unused, s.netDrives n = []) ∧
  (∀ x ∈ s.nodeList, ∀ n, s.backptr x = some n → n ∈ s.live ∧ x ∈ s.netNodes n) ∧
  (∀ n ∈ s.live, ∀ x ∈ s.netNodes n, x ∈ s.nodeList ∧ s.backptr x = some n) ∧
  (∀ n ∈ s.live, (s.netNodes n).Nodup) ∧
  s.nodeList.Nodup

/-- Back-pointers of nodes that were never created are still unset.  (This
    holds on every state reached from the empty map, but is not decidable,
    so it is kept apart from `ResetMap.WF`.) -/
def ResetMap.Tight (s : ResetMap) : Prop :=
  ∀ x, s.backptr x ≠ none → x ∈ s.nodeList

/-- Two field references lie in the same live net. -/
def ResetMap.inSameLiveNet (s : ResetMap) (x y : FieldRef) : Prop :=
  ∃ n ∈ s.live, x ∈ s.netNodes n ∧ y ∈ s.netNodes n

/-- Two field references have the same (set) net back-pointer. -/
def ResetMap.clsEq (s : ResetMap) (x y : FieldRef) : Prop :=
  ∃ n, s.backptr x = some n ∧ s.backptr y = some n

theorem mem_svInsert {α : Type} [DecidableEq α] (x y : α) (l : List α) :
    y ∈ svInsert x l ↔ y = x ∨ y ∈ l := by
  unfold svInsert
  split
  · constructor
    · exact fun h => Or.inr h
    · rintro (rfl | h) <;> assumption
  · simp [or_comm]

theorem nodup_svInsert {α : Type} [DecidableEq α] (x : α) (l : List α) (h : l.Nodup) :
    (svInsert x l).Nodup := by
  unfold svInsert
  split
  · exact h
  · rename_i hx
    rw [List.nodup_append]
    exact ⟨h, List.nodup_singleton x, by intro a ha hb; simp at hb; subst hb; exact hx ha⟩

theorem mem_foldl_svInsert {α : Type} [DecidableEq α] (l : List α) (init : List α) (y : α) :
    y ∈ l.foldl (fun acc x => svInsert x acc) init ↔ y ∈ init ∨ y ∈ l := by
  induction l generalizing init with
  | nil => simp
  | cons a as ih =>
      simp only [List.foldl_cons, ih, mem_svInsert, List.mem_cons]
      tauto

theorem nodup_foldl_svInsert {α : Type} [DecidableEq α] (l : List α) (init : List α)
    (h : init.Nodup) : (l.foldl (fun acc x => svInsert x acc) init).Nodup := by
  induction l generalizing init with
  | nil => exact h
  | cons a as ih => exact ih _ (nodup_svInsert a init h)

theorem foldl_svInsert_eq_append {α : Type} [DecidableEq α] (l : List α) (init : List α)
    (hd : ∀ x ∈ l, x ∉ init) (hn : l.Nodup) :
    l.foldl (fun acc x => svInsert x acc) init = init ++ l := by
  induction l generalizing init with
  | nil => simp
  | cons a as ih =>
      simp only [List.foldl_cons]
      have ha : a ∉ init := hd a (by simp)
      have h1 : svInsert a init = init ++ [a] := by unfold svInsert; simp [ha]
      rw [h1, ih (init ++ [a])
        (by
          intro x hx
          simp only [List.mem_append, List.mem_singleton]
          rintro (h | rfl)
          · exact hd x (by simp [hx]) h
          · exact (List.nodup_cons.mp hn).1 hx)
        (List.nodup_cons.mp hn).2]
      simp

/-! ### Properties of `getNode` -/

theorem ResetMap.getNode_live (s : ResetMap) (v : FieldRef) (t : FTy) :
    (s.getNode v t).live = s.live := by
  unfold ResetMap.getNode; split <;> rfl

theorem ResetMap.getNode_netNodes (s : ResetMap) (v : FieldRef) (t : FTy) :
    (s.getNode v t).netNodes = s.netNodes := by
  unfold ResetMap.getNode; split <;> rfl

theorem ResetMap.getNode_netDrives (s : ResetMap) (v : FieldRef) (t : FTy) :
    (s.getNode v t).netDrives = s.netDrives := by
  unfold ResetMap.getNode; split <;> rfl

theorem ResetMap.getNode_unused (s : ResetMap) (v : FieldRef) (t : FTy) :
    (s.getNode v t).unused = s.unused := by
  unfold ResetMap.getNode; split <;> rfl

theorem ResetMap.getNode_nextId (s : ResetMap) (v : FieldRef) (t : FTy) :
    (s.getNode v t).nextId = s.nextId := by
  unfold ResetMap.getNode; split <;> rfl

theorem ResetMap.getNode_mem_nodeList (s : ResetMap) (v : FieldRef) (t : FTy) (x : FieldRef) :
    x ∈ (s.getNode v t).nodeList ↔ x = v ∨ x ∈ s.nodeList := by
  unfold ResetMap.getNode
  split
  · constructor
    · exact fun h => Or.inr h
    · rintro (rfl | h) <;> assumption
  · simp

/-- If the node already exists, `getNode` is the identity. -/
theorem ResetMap.getNode_of_mem (s : ResetMap) (v : FieldRef) (t : FTy)
    (h : v ∈ s.nodeList) : s.getNode v t = s := by
  unfold ResetMap.getNode; simp [h]

/-- Under `Tight`, `getNode` does not change any back-pointer (a fresh
    node's pointer is already unset). -/
theorem ResetMap.getNode_backptr (s : ResetMap) (v : FieldRef) (t : FTy) (ht : s.Tight) :
    (s.getNode v t).backptr = s.backptr := by
  unfold ResetMap.getNode
  split
  · rfl
  · funext x
    by_cases hx : x = v
    · subst hx
      simp only [Function.update_same]
      by_cases hb : s.backptr x = none
      · exact hb.symm
      · exact absurd (ht x hb) ‹x ∉ s.nodeList›
    · simp [Function.update_noteq hx]

theorem ResetMap.getNode_Tight (s : ResetMap) (v : FieldRef) (t : FTy) (ht : s.Tight) :
    (s.getNode v t).Tight := by
  intro x hx
  rw [ResetMap.getNode_backptr s v t ht] at hx
  rw [ResetMap.getNode_mem_nodeList]
  exact Or.inr (ht x hx)

theorem ResetMap.getNode_WF (s : ResetMap) (v : FieldRef) (t : FTy) (h : s.WF)
    (ht : s.Tight) : (s.getNode v t).WF := by
  obtain ⟨h1, h2, h3, h4, h5, h6, h7, h8, h9, h10, h11⟩ := h
  unfold ResetMap.getNode
  split
  · exact ⟨h1, h2, h3, h4, h5, h6, h7, h8, h9, h10, h11⟩
  · rename_i hv
    unfold ResetMap.WF
    dsimp only
    refine ⟨h1, h2, h3, h4, h5, h6, h7, ?_, ?_, h10, ?_⟩
    · intro x hx n hn
      simp only [List.mem_cons] at hx
      rcases hx with rfl | hx
      · rw [Function.update_same] at hn
        exact absurd hn (by simp)
      · have hxv : x ≠ v := fun he => hv (he ▸ hx)
        rw [Function.update_noteq hxv] at hn
        exact h8 x hx n hn
    · intro n hn x hx
      have hin := h9 n hn x hx
      have hxv : x ≠ v := fun he => hv (he ▸ hin.1)
      exact ⟨List.mem_cons_of_mem _ hin.1, by rw [Function.update_noteq hxv]; exact hin.2⟩
    · exact List.nodup_cons.mpr ⟨hv, h11⟩

/-! ### Properties of `createNet` and the branches of `add` -/

theorem ResetMap.createNet_spec (s : ResetMap) (h : s.WF) :
    (s.createNet).1.backptr = s.backptr ∧
    (s.createNet).1.nodeList = s.nodeList ∧
    (s.createNet).1.live = s.live ++ [(s.createNet).2] ∧
    (s.createNet).2 ∉ s.live ∧
    (s.createNet).1.netNodes (s.createNet).2 = [] ∧
    (s.createNet).1.netDrives (s.createNet).2 = [] ∧
    (∀ m, m ≠ (s.createNet).2 → (s.createNet).1.netNodes m = s.netNodes m) ∧
    (∀ m, m ≠ (s.createNet).2 → (s.createNet).1.netDrives m = s.netDrives m) ∧
    (∀ m ∈ (s.createNet).1.unused, m ∈ s.unused ∧ m ≠ (s.createNet).2) ∧
    (s.createNet).1.unused.Nodup ∧
    (∀ m ∈ (s.createNet).1.live, m < (s.createNet).1.nextId) ∧
    (∀ m ∈ (s.createNet).1.unused, m < (s.createNet).1.nextId) := by
  obtain ⟨h1, h2, h3, h4, h5, h6, h7, h8, h9, h10, h11⟩ := h
  unfold ResetMap.createNet
  cases hu : s.unused with
  | nil =>
    dsimp only
    have hid : ∀ m ∈ s.live, m < s.nextId := h4
    refine ⟨rfl, rfl, rfl, fun hmem => absurd (hid _ hmem) (by omega), ?_, ?_, ?_, ?_, ?_, ?_, ?_, ?_⟩
    · rw [Function.update_same]
    · rw [Function.update_same]
    · intro m hm; rw [Function.update_noteq hm]
    · intro m hm; rw [Function.update_noteq hm]
    · intro m hm; exact absurd hm (List.not_mem_nil m)
    · exact List.nodup_nil
    · intro m hm
      rcases List.mem_append.mp hm with hm | hm
      · exact lt_trans (h4 m hm) (by omega)
      · simp at hm; omega
    · intro m hm; exact absurd hm (List.not_mem_nil m)
  | cons u rest =>
    dsimp only
    rw [hu] at h2 h3 h5 h6 h7
    have hu2 := List.nodup_cons.mp h2
    refine ⟨rfl, rfl, rfl, fun hmem => (h3 _ hmem) (by simp), h6 _ (by simp), h7 _ (by simp),
      fun m _ => rfl, fun m _ => rfl, ?_, hu2.2, ?_, ?_⟩
    · intro m hm
      exact ⟨List.mem_cons_of_mem u hm, fun he => hu2.1 (he ▸ hm)⟩
    · intro m hm
      rcases List.mem_append.mp hm with hm | hm
      · exact h4 m hm
      · simp at hm; subst hm; exact h5 _ (by simp)
    · intro m hm; exact h5 m (List.mem_cons_of_mem u hm)

theorem ResetMap.addCore_none_none (t : ResetMap) (dst src : FieldRef) (loc : Nat)
    (hd : t.backptr dst = none) (hs : t.backptr src = none) :
    t.addCore dst src loc =
      ({ (t.createNet).1 with
         backptr := Function.update (Function.update (t.createNet).1.backptr dst
           (some (t.createNet).2)) src (some (t.createNet).2)
         netNodes := Function.update (t.createNet).1.netNodes (t.createNet).2
           (svInsert src (svInsert dst ((t.createNet).1.netNodes (t.createNet).2)))
         netDrives := Function.update (t.createNet).1.netDrives (t.createNet).2
           ((t.createNet).1.netDrives (t.createNet).2 ++ [⟨dst, src, loc⟩]) },
       (t.createNet).2) := by
  unfold ResetMap.addCore
  rw [hd, hs]
  dsimp only [ResetMap.pushDrive]

theorem ResetMap.addCore_none_some (t : ResetMap) (dst src : FieldRef) (loc : Nat) (n : Nat)
    (hd : t.backptr dst = none) (hs : t.backptr src = some n) :
    t.addCore dst src loc =
      ({ t with
         backptr := Function.update t.backptr dst (some n)
         netNodes := Function.update t.netNodes n (svInsert dst (t.netNodes n))
         netDrives := Function.update t.netDrives n (t.netDrives n ++ [⟨dst, src, loc⟩]) },
       n) := by
  unfold ResetMap.addCore
  rw [hd, hs]
  dsimp only [ResetMap.pushDrive]

theorem ResetMap.addCore_some_none (t : ResetMap) (dst src : FieldRef) (loc : Nat) (n : Nat)
    (hd : t.backptr dst = some n) (hs : t.backptr src = none) :
    t.addCore dst src loc =
      ({ t with
         backptr := Function.update t.backptr src (some n)
         netNodes := Function.update t.netNodes n (svInsert src (t.netNodes n))
         netDrives := Function.update t.netDrives n (t.netDrives n ++ [⟨dst, src, loc⟩]) },
       n) := by
  unfold ResetMap.addCore
  rw [hd, hs]
  dsimp only [ResetMap.pushDrive]

theorem ResetMap.addCore_same (t : ResetMap) (dst src : FieldRef) (loc : Nat) (n : Nat)
    (hd : t.backptr dst = some n) (hs : t.backptr src = some n) :
    t.addCore dst src loc =
      ({ t with
         netDrives := Function.update t.netDrives n (t.netDrives n ++ [⟨dst, src, loc⟩]) },
       n) := by
  unfold ResetMap.addCore
  rw [hd, hs]
  dsimp only [ResetMap.pushDrive]
  simp

theorem ResetMap.addCore_merge_eq (t : ResetMap) (dst src : FieldRef) (loc : Nat)
    (nd ns win lose : Nat)
    (hd : t.backptr dst = some nd) (hs : t.backptr src = some ns) (hne : nd ≠ ns)
    (hwin : win = if (t.netNodes nd).length < (t.netNodes ns).length then ns else nd)
    (hlose : lose = if (t.netNodes nd).length < (t.netNodes ns).length then nd else ns) :
    t.addCore dst src loc =
      ({ t with
         backptr := fun x => if x ∈ t.netNodes lose then some win else t.backptr x
         live := t.live.filter (· ≠ lose)
         netNodes := Function.update (Function.update t.netNodes win
           ((t.netNodes lose).foldl (fun acc x => svInsert x acc) (t.netNodes win))) lose []
         netDrives := Function.update (Function.update (Function.update t.netDrives win
             (t.netDrives win ++ t.netDrives lose)) lose [])
           win ((Function.update (Function.update t.netDrives win
             (t.netDrives win ++ t.netDrives lose)) lose []) win ++ [⟨dst, src, loc⟩])
         netKind := Function.update t.netKind lose .uninferred
         unused := lose :: t.unused },
       win) := by
  subst hwin hlose
  unfold ResetMap.addCore
  rw [hd, hs]
  dsimp only [ResetMap.pushDrive, ResetMap.abandonNet]
  rw [if_neg hne]

theorem ResetMap.add_spec_none_none (t : ResetMap) (dst src : FieldRef) (loc : Nat)
    (hw : t.WF) (ht : t.Tight) (hdm : dst ∈ t.nodeList) (hsm : src ∈ t.nodeList)
    (hd : t.backptr dst = none) (hs : t.backptr src = none) :
    (t.addCore dst src loc).1.WF ∧ (t.addCore dst src loc).1.Tight ∧
    ((t.addCore dst src loc).1.backptr = fun x =>
      if x = src ∨ x = dst then some (t.addCore dst src loc).2 else t.backptr x) ∧
    (∀ z, t.backptr z ≠ some (t.addCore dst src loc).2) ∧
    (t.addCore dst src loc).1.live = t.live ++ [(t.addCore dst src loc).2] ∧
    (t.addCore dst src loc).2 ∉ t.live ∧
    (t.addCore dst src loc).1.netNodes (t.addCore dst src loc).2 = svInsert src [dst] ∧
    (∀ m, m ≠ (t.addCore dst src loc).2 →
      (t.addCore dst src loc).1.netNodes m = t.netNodes m) ∧
    (t.addCore dst src loc).1.netDrives (t.addCore dst src loc).2 = [⟨dst, src, loc⟩] ∧
    (∀ m, m ≠ (t.addCore dst src loc).2 →
      (t.addCore dst src loc).1.netDrives m = t.netDrives m) ∧
    (t.addCore dst src loc).1.nodeList = t.nodeList := by
  obtain ⟨cb, cn, cl, cnl, cnn, cnd, cno, cdo, cus, cun, clb, cub⟩ := t.createNet_spec hw
  obtain ⟨h1, h2, h3, h4, h5, h6, h7, h8, h9, h10, h11⟩ := hw
  rw [ResetMap.addCore_none_none t dst src loc hd hs]
  dsimp only
  have hzid : ∀ z, t.backptr z ≠ some (t.createNet).2 := by
    intro z hz
    have hzn : t.backptr z ≠ none := by rw [hz]; simp
    have hzl := ht z hzn
    have := (h8 z hzl _ hz).1
    exact cnl this
  have hbp : (Function.update (Function.update (t.createNet).1.backptr dst
      (some (t.createNet).2)) src (some (t.createNet).2)) = fun x =>
      if x = src ∨ x = dst then some (t.createNet).2 else t.backptr x := by
    funext x
    by_cases hxs : x = src
    · subst hxs; simp [Function.update_same]
    · rw [Function.update_noteq hxs]
      by_cases hxd : x = dst
      · subst hxd; simp [Function.update_same]
      · rw [Function.update_noteq hxd, cb]
        simp [hxs, hxd]
  have hnetid : Function.update (t.createNet).1.netNodes (t.createNet).2
      (svInsert src (svInsert dst ((t.createNet).1.netNodes (t.createNet).2)))
      (t.createNet).2 = svInsert src [dst] := by
    rw [Function.update_same, cnn]
    rfl
  refine ⟨?_, ?_, hbp, hzid, cl, cnl, hnetid, ?_, ?_, ?_, cn⟩
  · -- WF of the result
    dsimp only [ResetMap.WF]
    refine ⟨?_, cun, ?_, clb, cub, ?_, ?_, ?_, ?_, ?_, ?_⟩
    · rw [cl, List.nodup_append]
      refine ⟨h1, List.nodup_singleton _, ?_⟩
      intro a ha hb
      simp at hb
      subst hb
      exact cnl ha
    · intro n hn hnu
      rw [cl] at hn
      rcases List.mem_append.mp hn with hn | hn
      · exact (h3 n hn) (cus n hnu).1
      · simp at hn; subst hn; exact (cus _ hnu).2 rfl
    · intro n hnu
      have hne := (cus n hnu).2
      rw [Function.update_noteq hne, cno n hne]
      exact h6 n (cus n hnu).1
    · intro n hnu
      have hne := (cus n hnu).2
      rw [Function.update_noteq hne, cdo n hne]
      exact h7 n (cus n hnu).1
    · intro x hx n hn
      rw [cn] at hx
      rw [hbp] at hn
      dsimp only at hn
      by_cases hxo : x = src ∨ x = dst
      · simp only [hxo, if_true] at hn
        injection hn with hn
        subst hn
        constructor
        · rw [cl]; simp
        · rw [hnetid, mem_svInsert]
          rcases hxo with rfl | rfl
          · left; rfl
          · right; simp
      · simp only [hxo, if_false] at hn
        have hold := h8 x hx n hn
        have hnid : n ≠ (t.createNet).2 := fun he => cnl (he ▸ hold.1)
        constructor
        · rw [cl]; exact List.mem_append.mpr (Or.inl hold.1)
        · rw [Function.update_noteq hnid, cno n hnid]
          exact hold.2
    · intro n hn x hx
      rw [cl] at hn
      rw [cn]
      rcases List.mem_append.mp hn with hn | hn
      · have hnid : n ≠ (t.createNet).2 := fun he => cnl (he ▸ hn)
        rw [Function.update_noteq hnid, cno n hnid] at hx
        have hold := h9 n hn x hx
        refine ⟨hold.1, ?_⟩
        rw [hbp]
        dsimp only
        have hxs : x ≠ src := fun he => by rw [he, hs] at hold; exact Option.noConfusion hold.2
        have hxd : x ≠ dst := fun he => by rw [he, hd] at hold; exact Option.noConfusion hold.2
        simp only [hxs, hxd, or_self, if_false]
        exact hold.2
      · simp at hn
        subst hn
        rw [hnetid, mem_svInsert] at hx
        have hxmem : x = src ∨ x = dst := by
          rcases hx with h | h
          · exact Or.inl h
          · simp at h; exact Or.inr h
        constructor
        · rcases hxmem with rfl | rfl <;> assumption
        · rw [hbp]; dsimp only; simp [hxmem]
    · intro n hn
      rw [cl] at hn
      rcases List.mem_append.mp hn with hn | hn
      · have hnid : n ≠ (t.createNet).2 := fun he => cnl (he ▸ hn)
        rw [Function.update_noteq hnid, cno n hnid]
        exact h10 n hn
      · simp at hn
        subst hn
        rw [hnetid]
        exact nodup_svInsert _ _ (List.nodup_singleton _)
    · rw [cn]; exact h11
  · -- Tight
    intro x hx
    dsimp only at hx ⊢
    rw [cn]
    rw [hbp] at hx
    dsimp only at hx
    by_cases hxo : x = src ∨ x = dst
    · rcases hxo with rfl | rfl <;> assumption
    · simp only [hxo, if_false] at hx
      exact ht x hx
  · intro m hm
    rw [Function.update_noteq hm]
    exact cno m hm
  · rw [Function.update_same, cnd]
    rfl
  · intro m hm
    rw [Function.update_noteq hm]
    exact cdo m hm

theorem ResetMap.add_spec_none_some (t : ResetMap) (dst src : FieldRef) (loc : Nat) (n : Nat)
    (hw : t.WF) (ht : t.Tight) (hdm : dst ∈ t.nodeList) (hsm : src ∈ t.nodeList)
    (hd : t.backptr dst = none) (hs : t.backptr src = some n) :
    (t.addCore dst src loc).1.WF ∧ (t.addCore dst src loc).1.Tight ∧
    (t.addCore dst src loc).2 = n ∧
    ((t.addCore dst src loc).1.backptr = fun x =>
      if x = dst then some n else t.backptr x) ∧
    (t.addCore dst src loc).1.live = t.live ∧ n ∈ t.live ∧
    (t.addCore dst src loc).1.netNodes n = svInsert dst (t.netNodes n) ∧
    (∀ m, m ≠ n → (t.addCore dst src loc).1.netNodes m = t.netNodes m) ∧
    (t.addCore dst src loc).1.netDrives n = t.netDrives n ++ [⟨dst, src, loc⟩] ∧
    (∀ m, m ≠ n → (t.addCore dst src loc).1.netDrives m = t.netDrives m) ∧
    (t.addCore dst src loc).1.nodeList = t.nodeList := by
  obtain ⟨h1, h2, h3, h4, h5, h6, h7, h8, h9, h10, h11⟩ := hw
  have hn := h8 src hsm n hs
  rw [ResetMap.addCore_none_some t dst src loc n hd hs]
  dsimp only
  refine ⟨?_, ?_, rfl, ?_, rfl, hn.1, ?_, ?_, ?_, ?_, rfl⟩
  · dsimp only [ResetMap.WF]
    refine ⟨h1, h2, h3, h4, h5, ?_, ?_, ?_, ?_, ?_, h11⟩
    · intro m hm
      have hmn : m ≠ n := fun he => (h3 n hn.1) (he ▸ hm)
      rw [Function.update_noteq hmn]
      exact h6 m hm
    · intro m hm
      have hmn : m ≠ n := fun he => (h3 n hn.1) (he ▸ hm)
      rw [Function.update_noteq hmn]
      exact h7 m hm
    · intro x hx m hm
      by_cases hxd : x = dst
      · subst hxd
        rw [Function.update_same] at hm
        injection hm with hm
        subst hm
        refine ⟨hn.1, ?_⟩
        rw [Function.update_same, mem_svInsert]
        left; rfl
      · rw [Function.update_noteq hxd] at hm
        have hold := h8 x hx m hm
        refine ⟨hold.1, ?_⟩
        by_cases hmn : m = n
        · subst hmn
          rw [Function.update_same, mem_svInsert]
          right; exact hold.2
        · rw [Function.update_noteq hmn]
          exact hold.2
    · intro k hk x hx
      by_cases hkn : k = n
      · subst hkn
        rw [Function.update_same, mem_svInsert] at hx
        rcases hx with rfl | hx
        · exact ⟨hdm, by rw [Function.update_same]⟩
        · have hold := h9 k hk x hx
          have hxd : x ≠ dst := fun he => by rw [he, hd] at hold; exact Option.noConfusion hold.2
          exact ⟨hold.1, by rw [Function.update_noteq hxd]; exact hold.2⟩
      · rw [Function.update_noteq hkn] at hx
        have hold := h9 k hk x hx
        have hxd : x ≠ dst := fun he => by rw [he, hd] at hold; exact Option.noConfusion hold.2
        exact ⟨hold.1, by rw [Function.update_noteq hxd]; exact hold.2⟩
    · intro k hk
      by_cases hkn : k = n
      · subst hkn
        rw [Function.update_same]
        exact nodup_svInsert _ _ (h10 _ hn.1)
      · rw [Function.update_noteq hkn]
        exact h10 k hk
  · intro x hx
    dsimp only at hx
    by_cases hxd : x = dst
    · subst hxd; exact hdm
    · rw [Function.update_noteq hxd] at hx
      exact ht x hx
  · funext x
    by_cases hxd : x = dst
    · subst hxd
      rw [Function.update_same]
      simp
    · rw [Function.update_noteq hxd]
      simp [hxd]
  · rw [Function.update_same]
  · intro m hm
    rw [Function.update_noteq hm]
  · rw [Function.update_same]
  · intro m hm
    rw [Function.update_noteq hm]

theorem ResetMap.add_spec_some_none (t : ResetMap) (dst src : FieldRef) (loc : Nat) (n : Nat)
    (hw : t.WF) (ht : t.Tight) (hdm : dst ∈ t.nodeList) (hsm : src ∈ t.nodeList)
    (hd : t.backptr dst = some n) (hs : t.backptr src = none) :
    (t.addCore dst src loc).1.WF ∧ (t.addCore dst src loc).1.Tight ∧
    (t.addCore dst src loc).2 = n ∧
    ((t.addCore dst src loc).1.backptr = fun x =>
      if x = src then some n else t.backptr x) ∧
    (t.addCore dst src loc).1.live = t.live ∧ n ∈ t.live ∧
    (t.addCore dst src loc).1.netNodes n = svInsert src (t.netNodes n) ∧
    (∀ m, m ≠ n → (t.addCore dst src loc).1.netNodes m = t.netNodes m) ∧
    (t.addCore dst src loc).1.netDrives n = t.netDrives n ++ [⟨dst, src, loc⟩] ∧
    (∀ m, m ≠ n → (t.addCore dst src loc).1.netDrives m = t.netDrives m) ∧
    (t.addCore dst src loc).1.nodeList = t.nodeList := by
  obtain ⟨h1, h2, h3, h4, h5, h6, h7, h8, h9, h10, h11⟩ := hw
  have hn := h8 dst hdm n hd
  rw [ResetMap.addCore_some_none t dst src loc n hd hs]
  dsimp only
  refine ⟨?_, ?_, rfl, ?_, rfl, hn.1, ?_, ?_, ?_, ?_, rfl⟩
  · dsimp only [ResetMap.WF]
    refine ⟨h1, h2, h3, h4, h5, ?_, ?_, ?_, ?_, ?_, h11⟩
    · intro m hm
      have hmn : m ≠ n := fun he => (h3 n hn.1) (he ▸ hm)
      rw [Function.update_noteq hmn]
      exact h6 m hm
    · intro m hm
      have hmn : m ≠ n := fun he => (h3 n hn.1) (he ▸ hm)
      rw [Function.update_noteq hmn]
      exact h7 m hm
    · intro x hx m hm
      by_cases hxs : x = src
      · subst hxs
        rw [Function.update_same] at hm
        injection hm with hm
        subst hm
        refine ⟨hn.1, ?_⟩
        rw [Function.update_same, mem_svInsert]
        left; rfl
      · rw [Function.update_noteq hxs] at hm
        have hold := h8 x hx m hm
        refine ⟨hold.1, ?_⟩
        by_cases hmn : m = n
        · subst hmn
          rw [Function.update_same, mem_svInsert]
          right; exact hold.2
        · rw [Function.update_noteq hmn]
          exact hold.2
    · intro k hk x hx
      by_cases hkn : k = n
      · subst hkn
        rw [Function.update_same, mem_svInsert] at hx
        rcases hx with rfl | hx
        · exact ⟨hsm, by rw [Function.update_same]⟩
        · have hold := h9 k hk x hx
          have hxs : x ≠ src := fun he => by rw [he, hs] at hold; exact Option.noConfusion hold.2
          exact ⟨hold.1, by rw [Function.update_noteq hxs]; exact hold.2⟩
      · rw [Function.update_noteq hkn] at hx
        have hold := h9 k hk x hx
        have hxs : x ≠ src := fun he => by rw [he, hs] at hold; exact Option.noConfusion hold.2
        exact ⟨hold.1, by rw [Function.update_noteq hxs]; exact hold.2⟩
    · intro k hk
      by_cases hkn : k = n
      · subst hkn
        rw [Function.update_same]
        exact nodup_svInsert _ _ (h10 _ hn.1)
      · rw [Function.update_noteq hkn]
        exact h10 k hk
  · intro x hx
    dsimp only at hx
    by_cases hxs : x = src
    · subst hxs; exact hsm
    · rw [Function.update_noteq hxs] at hx
      exact ht x hx
  · funext x
    by_cases hxs : x = src
    · subst hxs
      rw [Function.update_same]
      simp
    · rw [Function.update_noteq hxs]
      simp [hxs]
  · rw [Function.update_same]
  · intro m hm
    rw [Function.update_noteq hm]
  · rw [Function.update_same]
  · intro m hm
    rw [Function.update_noteq hm]

theorem ResetMap.add_spec_same (t : ResetMap) (dst src : FieldRef) (loc : Nat) (n : Nat)
    (hw : t.WF) (ht : t.Tight) (hdm : dst ∈ t.nodeList) (hsm : src ∈ t.nodeList)
    (hd : t.backptr dst = some n) (hs : t.backptr src = some n) :
    (t.addCore dst src loc).1.WF ∧ (t.addCore dst src loc).1.Tight ∧
    (t.addCore dst src loc).2 = n ∧
    (t.addCore dst src loc).1.backptr = t.backptr ∧
    (t.addCore dst src loc).1.live = t.live ∧ n ∈ t.live ∧
    (t.addCore dst src loc).1.netNodes = t.netNodes ∧
    (t.addCore dst src loc).1.netDrives n = t.netDrives n ++ [⟨dst, src, loc⟩] ∧
    (∀ m, m ≠ n → (t.addCore dst src loc).1.netDrives m = t.netDrives m) ∧
    (t.addCore dst src loc).1.nodeList = t.nodeList := by
  obtain ⟨h1, h2, h3, h4, h5, h6, h7, h8, h9, h10, h11⟩ := hw
  have hn := h8 dst hdm n hd
  rw [ResetMap.addCore_same t dst src loc n hd hs]
  dsimp only
  refine ⟨?_, ht, rfl, rfl, rfl, hn.1, rfl, ?_, ?_, rfl⟩
  · dsimp only [ResetMap.WF]
    refine ⟨h1, h2, h3, h4, h5, h6, ?_, ?_, h9, h10, h11⟩
    · intro m hm
      have hmn : m ≠ n := fun he => (h3 n hn.1) (he ▸ hm)
      rw [Function.update_noteq hmn]
      exact h7 m hm
    · intro x hx m hm
      exact h8 x hx m hm
  · rw [Function.update_same]
  · intro m hm
    rw [Function.update_noteq hm]

theorem ResetMap.add_spec_merge (t : ResetMap) (dst src : FieldRef) (loc : Nat)
    (nd ns win lose : Nat)
    (hw : t.WF) (hdm : dst ∈ t.nodeList) (hsm : src ∈ t.nodeList)
    (hd : t.backptr dst = some nd) (hs : t.backptr src = some ns) (hne : nd ≠ ns)
    (hwin : win = if (t.netNodes nd).length < (t.netNodes ns).length then ns else nd)
    (hlose : lose = if (t.netNodes nd).length < (t.netNodes ns).length then nd else ns) :
    (t.addCore dst src loc).1.WF ∧
    (t.addCore dst src loc).2 = win ∧
    ((t.addCore dst src loc).1.backptr = fun x =>
      if x ∈ t.netNodes lose then some win else t.backptr x) ∧
    win ∈ t.live ∧ lose ∈ t.live ∧ win ≠ lose ∧
    win ∈ (t.addCore dst src loc).1.live ∧ lose ∉ (t.addCore dst src loc).1.live ∧
    (t.addCore dst src loc).1.live = t.live.filter (· ≠ lose) ∧
    lose ∈ (t.addCore dst src loc).1.unused ∧
    (t.netNodes lose).length ≤ (t.netNodes win).length ∧
    (t.addCore dst src loc).1.netNodes win = t.netNodes win ++ t.netNodes lose ∧
    (t.addCore dst src loc).1.netNodes lose = [] ∧
    (∀ m, m ≠ win → m ≠ lose → (t.addCore dst src loc).1.netNodes m = t.netNodes m) ∧
    (∀ x ∈ t.netNodes lose,
      (t.addCore dst src loc).1.backptr x = some win ∧
      x ∈ (t.addCore dst src loc).1.netNodes win) ∧
    (t.addCore dst src loc).1.netDrives win
      = t.netDrives win ++ t.netDrives lose ++ [⟨dst, src, loc⟩] ∧
    (∀ m, m ≠ win → m ≠ lose → (t.addCore dst src loc).1.netDrives m = t.netDrives m) ∧
    (t.addCore dst src loc).1.nodeList = t.nodeList := by
  obtain ⟨h1, h2, h3, h4, h5, h6, h7, h8, h9, h10, h11⟩ := hw
  have hndl := h8 dst hdm nd hd
  have hnsl := h8 src hsm ns hs
  have hwl : win ∈ t.live := by
    rw [hwin]; split
    · exact hnsl.1
    · exact hndl.1
  have hll : lose ∈ t.live := by
    rw [hlose]; split
    · exact hndl.1
    · exact hnsl.1
  have hwlne : win ≠ lose := by
    rw [hwin, hlose]; split
    · exact hne.symm
    · exact hne
  have hsize : (t.netNodes lose).length ≤ (t.netNodes win).length := by
    rw [hwin, hlose]; split
    · omega
    · omega
  have hdisj : ∀ x ∈ t.netNodes lose, x ∉ t.netNodes win := by
    intro x hxl hxw
    have e1 := (h9 lose hll x hxl).2
    have e2 := (h9 win hwl x hxw).2
    rw [e1] at e2
    exact hwlne (Option.some.inj e2).symm
  have hmig : (t.netNodes lose).foldl (fun acc x => svInsert x acc) (t.netNodes win)
      = t.netNodes win ++ t.netNodes lose :=
    foldl_svInsert_eq_append _ _ hdisj (h10 lose hll)
  rw [ResetMap.addCore_merge_eq t dst src loc nd ns win lose hd hs hne hwin hlose]
  dsimp only
  have hnn_win : Function.update (Function.update t.netNodes win
      ((t.netNodes lose).foldl (fun acc x => svInsert x acc) (t.netNodes win))) lose [] win
      = t.netNodes win ++ t.netNodes lose := by
    rw [Function.update_noteq hwlne, Function.update_same, hmig]
  have hnn_lose : Function.update (Function.update t.netNodes win
      ((t.netNodes lose).foldl (fun acc x => svInsert x acc) (t.netNodes win))) lose [] lose
      = [] := by
    rw [Function.update_same]
  have hnn_other : ∀ m, m ≠ win → m ≠ lose →
      Function.update (Function.update t.netNodes win
        ((t.netNodes lose).foldl (fun acc x => svInsert x acc) (t.netNodes win))) lose [] m
      = t.netNodes m := by
    intro m hmw hml
    rw [Function.update_noteq hml, Function.update_noteq hmw]
  have hdr_mid : Function.update (Function.update t.netDrives win
      (t.netDrives win ++ t.netDrives lose)) lose [] win
      = t.netDrives win ++ t.netDrives lose := by
    rw [Function.update_noteq hwlne, Function.update_same]
  have hdr_win : Function.update (Function.update (Function.update t.netDrives win
        (t.netDrives win ++ t.netDrives lose)) lose [])
      win ((Function.update (Function.update t.netDrives win
        (t.netDrives win ++ t.netDrives lose)) lose []) win ++ [⟨dst, src, loc⟩]) win
      = t.netDrives win ++ t.netDrives lose ++ [ResetDrive.mk dst src loc] := by
    rw [Function.update_same, hdr_mid]
  have hdr_lose : Function.update (Function.update (Function.update t.netDrives win
        (t.netDrives win ++ t.netDrives lose)) lose [])
      win ((Function.update (Function.update t.netDrives win
        (t.netDrives win ++ t.netDrives lose)) lose []) win ++ [⟨dst, src, loc⟩]) lose
      = [] := by
    rw [Function.update_noteq (fun he => hwlne he.symm), Function.update_same]
  have hdr_other : ∀ m, m ≠ win → m ≠ lose →
      Function.update (Function.update (Function.update t.netDrives win
        (t.netDrives win ++ t.netDrives lose)) lose [])
      win ((Function.update (Function.update t.netDrives win
        (t.netDrives win ++ t.netDrives lose)) lose []) win ++ [⟨dst, src, loc⟩]) m
      = t.netDrives m := by
    intro m hmw hml
    rw [Function.update_noteq hmw, Function.update_noteq hml, Function.update_noteq hmw]
  have hlive_mem : ∀ m, m ∈ t.live.filter (· ≠ lose) ↔ m ∈ t.live ∧ m ≠ lose := by
    intro m
    rw [List.mem_filter]
    simp
  have hbp_lose_iff : ∀ x, x ∈ t.netNodes lose → t.backptr x = some lose := by
    intro x hx
    exact (h9 lose hll x hx).2
  refine ⟨?_, rfl, rfl, hwl, hll, hwlne, ?_, ?_, rfl, by simp, hsize, hnn_win, hnn_lose,
    hnn_other, ?_, hdr_win, hdr_other, rfl⟩
  · -- WF of the merged state
    dsimp only [ResetMap.WF]
    refine ⟨?_, ?_, ?_, ?_, ?_, ?_, ?_, ?_, ?_, ?_, h11⟩
    · exact h1.filter _
    · exact List.nodup_cons.mpr ⟨h3 lose hll, h2⟩
    · intro m hm
      rw [hlive_mem] at hm
      intro hmem
      rcases List.mem_cons.mp hmem with he | hmem
      · exact hm.2 he
      · exact (h3 m hm.1) hmem
    · intro m hm
      rw [hlive_mem] at hm
      exact h4 m hm.1
    · intro m hm
      rcases List.mem_cons.mp hm with he | hmem
      · subst he; exact h4 m hll
      · exact h5 m hmem
    · intro m hm
      rcases List.mem_cons.mp hm with he | hmem
      · subst he; exact hnn_lose
      · have hml : m ≠ lose := fun he => (h3 lose hll) (he ▸ hmem)
        have hmw : m ≠ win := fun he => (h3 win hwl) (he ▸ hmem)
        rw [hnn_other m hmw hml]
        exact h6 m hmem
    · intro m hm
      rcases List.mem_cons.mp hm with he | hmem
      · subst he; exact hdr_lose
      · have hml : m ≠ lose := fun he => (h3 lose hll) (he ▸ hmem)
        have hmw : m ≠ win := fun he => (h3 win hwl) (he ▸ hmem)
        rw [hdr_other m hmw hml]
        exact h7 m hmem
    · intro x hx m hm
      by_cases hxl : x ∈ t.netNodes lose
      · simp only [hxl, if_true] at hm
        injection hm with hm
        subst hm
        refine ⟨?_, ?_⟩
        · rw [hlive_mem]; exact ⟨hwl, hwlne⟩
        · rw [hnn_win]
          exact List.mem_append.mpr (Or.inr hxl)
      · simp only [hxl, if_false] at hm
        have hold := h8 x hx m hm
        have hml : m ≠ lose := by
          intro he
          subst he
          exact hxl hold.2
        refine ⟨?_, ?_⟩
        · rw [hlive_mem]; exact ⟨hold.1, hml⟩
        · by_cases hmw : m = win
          · subst hmw
            rw [hnn_win]
            exact List.mem_append.mpr (Or.inl hold.2)
          · rw [hnn_other m hmw hml]
            exact hold.2
    · intro k hk x hx
      rw [hlive_mem] at hk
      by_cases hkw : k = win
      · subst hkw
        rw [hnn_win] at hx
        rcases List.mem_append.mp hx with hx | hx
        · have hold := h9 _ hwl x hx
          have hxl : x ∉ t.netNodes lose := fun hxl => hdisj x hxl hx
          refine ⟨hold.1, ?_⟩
          dsimp only
          simp only [hxl, if_false]
          exact hold.2
        · have hold := h9 lose hll x hx
          refine ⟨hold.1, ?_⟩
          dsimp only
          simp only [hx, if_true]
      · rw [hnn_other k hkw hk.2] at hx
        have hold := h9 k hk.1 x hx
        have hxl : x ∉ t.netNodes lose := by
          intro hxl
          have := hbp_lose_iff x hxl
          rw [this] at hold
          exact hk.2 (Option.some.inj hold.2).symm
        refine ⟨hold.1, ?_⟩
        dsimp only
        simp only [hxl, if_false]
        exact hold.2
    · intro k hk
      rw [hlive_mem] at hk
      by_cases hkw : k = win
      · subst hkw
        rw [hnn_win, List.nodup_append]
        exact ⟨h10 _ hwl, h10 lose hll, fun a ha hb => hdisj a hb ha⟩
      · rw [hnn_other k hkw hk.2]
        exact h10 k hk.1
  · rw [hlive_mem]
    exact ⟨hwl, hwlne⟩
  · rw [hlive_mem]
    intro h
    exact h.2 rfl
  · intro x hx
    constructor
    · dsimp only
      simp only [hx, if_true]
    · rw [hnn_win]
      exact List.mem_append.mpr (Or.inr hx)

/-- Under `Tight`, the merged back-pointer map is a plain relabelling of the
    losing net id to the winning one. -/
theorem ResetMap.add_merge_backptr_relabel (t : ResetMap) (dst src : FieldRef) (loc : Nat)
    (nd ns win lose : Nat)
    (hw : t.WF) (ht : t.Tight) (hdm : dst ∈ t.nodeList) (hsm : src ∈ t.nodeList)
    (hd : t.backptr dst = some nd) (hs : t.backptr src = some ns) (hne : nd ≠ ns)
    (hwin : win = if (t.netNodes nd).length < (t.netNodes ns).length then ns else nd)
    (hlose : lose = if (t.netNodes nd).length < (t.netNodes ns).length then nd else ns) :
    ∀ x, (t.addCore dst src loc).1.backptr x
      = if t.backptr x = some lose then some win else t.backptr x := by
  obtain ⟨-, -, hbp, -, hll, -, -, -, -, -, -, -, -, -, -, -, -, -⟩ :=
    ResetMap.add_spec_merge t dst src loc nd ns win lose hw hdm hsm hd hs hne hwin hlose
  intro x
  rw [hbp]
  dsimp only
  by_cases hxl : x ∈ t.netNodes lose
  · have hbx : t.backptr x = some lose := (hw.2.2.2.2.2.2.2.2.1 lose hll x hxl).2
    simp [hxl, hbx]
  · simp only [hxl, if_false]
    by_cases hbx : t.backptr x = some lose
    · exfalso
      have hxn : x ∈ t.nodeList := ht x (by rw [hbx]; simp)
      have := (hw.2.2.2.2.2.2.2.1 x hxn lose hbx).2
      exact hxl this
    · simp [hbx]

/-! ### The class characterization of one `add` call -/

/-- `linked s dst src z`: `z` is one of the endpoints of the new drive or
    already shares a net with one of them. -/
def ResetMap.linked (s : ResetMap) (dst src z : FieldRef) : Prop :=
  z = dst ∨ z = src ∨ s.clsEq z dst ∨ s.clsEq z src

theorem ResetMap.clsEq_iff_inSameLiveNet (s : ResetMap) (hw : s.WF) (ht : s.Tight)
    (x y : FieldRef) : s.inSameLiveNet x y ↔ s.clsEq x y := by
  obtain ⟨h1, h2, h3, h4, h5, h6, h7, h8, h9, h10, h11⟩ := hw
  constructor
  · rintro ⟨n, hn, hx, hy⟩
    exact ⟨n, (h9 n hn x hx).2, (h9 n hn y hy).2⟩
  · rintro ⟨n, hx, hy⟩
    have hxl : x ∈ s.nodeList := ht x (by rw [hx]; simp)
    have hyl : y ∈ s.nodeList := ht y (by rw [hy]; simp)
    have ha := h8 x hxl n hx
    have hb := h8 y hyl n hy
    exact ⟨n, ha.1, ha.2, hb.2⟩

theorem ResetMap.addNet_props (s0 : ResetMap) (dst : FieldRef) (dstType : FTy)
    (src : FieldRef) (srcType : FTy) (loc : Nat) (hw : s0.WF) (ht : s0.Tight) :
    (s0.addNet dst dstType src srcType loc).1.WF ∧
    (s0.addNet dst dstType src srcType loc).1.Tight ∧
    (∀ x, ((s0.addNet dst dstType src srcType loc).1.backptr x ≠ none) ↔
      (s0.backptr x ≠ none ∨ x = dst ∨ x = src)) ∧
    (∀ x y, (s0.addNet dst dstType src srcType loc).1.clsEq x y ↔
      (s0.clsEq x y ∨ (s0.linked dst src x ∧ s0.linked dst src y))) := by
  have hw1 := ResetMap.getNode_WF s0 dst dstType hw ht
  have ht1 := ResetMap.getNode_Tight s0 dst dstType ht
  have hw2 := ResetMap.getNode_WF _ src srcType hw1 ht1
  have ht2 := ResetMap.getNode_Tight _ src srcType ht1
  have hbp2 : ((s0.getNode dst dstType).getNode src srcType).backptr = s0.backptr := by
    rw [ResetMap.getNode_backptr _ src srcType ht1, ResetMap.getNode_backptr s0 dst dstType ht]
  have hdm : dst ∈ ((s0.getNode dst dstType).getNode src srcType).nodeList := by
    rw [ResetMap.getNode_mem_nodeList, ResetMap.getNode_mem_nodeList]
    right; left; rfl
  have hsm : src ∈ ((s0.getNode dst dstType).getNode src srcType).nodeList := by
    rw [ResetMap.getNode_mem_nodeList]
    left; rfl
  unfold ResetMap.addNet
  set s1 := (s0.getNode dst dstType).getNode src srcType with hs1
  rcases hbd : s0.backptr dst with _ | nd <;> rcases hbs : s0.backptr src with _ | ns
  · -- both fresh: a new net
    have hbd1 : s1.backptr dst = none := by rw [hbp2]; exact hbd
    have hbs1 : s1.backptr src = none := by rw [hbp2]; exact hbs
    obtain ⟨pw, pt, pbp, pzid, -, -, -, -, -, -, -⟩ :=
      ResetMap.add_spec_none_none s1 dst src loc hw2 ht2 hdm hsm hbd1 hbs1
    rw [hbp2] at pbp pzid
    refine ⟨pw, pt, ?_, ?_⟩
    · intro x
      rw [pbp]
      dsimp only
      by_cases hx : x = src ∨ x = dst
      · simp only [hx, if_true]
        simp [hx]
        tauto
      · simp only [hx, if_false]
        push_neg at hx
        simp [hx.1, hx.2]
    · intro x y
      unfold ResetMap.clsEq ResetMap.linked ResetMap.clsEq
      rw [pbp]
      dsimp only
      constructor
      · rintro ⟨n, e1, e2⟩
        by_cases hx : x = src ∨ x = dst <;> by_cases hy : y = src ∨ y = dst
        · right
          constructor
          · rcases hx with rfl | rfl
            · right; left; rfl
            · left; rfl
          · rcases hy with rfl | rfl
            · right; left; rfl
            · left; rfl
        · exfalso
          simp only [hx, if_true] at e1
          simp only [hy, if_false] at e2
          injection e1 with e1
          subst e1
          exact pzid y e2
        · exfalso
          simp only [hx, if_false] at e1
          simp only [hy, if_true] at e2
          injection e2 with e2
          subst e2
          exact pzid x e1
        · simp only [hx, if_false] at e1
          simp only [hy, if_false] at e2
          exact Or.inl ⟨n, e1, e2⟩
      · rintro (⟨n, e1, e2⟩ | ⟨lx, ly⟩)
        · have hx : ¬(x = src ∨ x = dst) := by
            rintro (rfl | rfl)
            · rw [hbs] at e1; exact Option.noConfusion e1
            · rw [hbd] at e1; exact Option.noConfusion e1
          have hy : ¬(y = src ∨ y = dst) := by
            rintro (rfl | rfl)
            · rw [hbs] at e2; exact Option.noConfusion e2
            · rw [hbd] at e2; exact Option.noConfusion e2
          refine ⟨n, ?_, ?_⟩
          · simp only [hx, if_false]; exact e1
          · simp only [hy, if_false]; exact e2
        · have hlx : x = src ∨ x = dst := by
            rcases lx with rfl | rfl | ⟨n, -, e⟩ | ⟨n, -, e⟩
            · right; rfl
            · left; rfl
            · rw [hbd] at e; exact absurd e (by simp)
            · rw [hbs] at e; exact absurd e (by simp)
          have hly : y = src ∨ y = dst := by
            rcases ly with rfl | rfl | ⟨n, -, e⟩ | ⟨n, -, e⟩
            · right; rfl
            · left; rfl
            · rw [hbd] at e; exact absurd e (by simp)
            · rw [hbs] at e; exact absurd e (by simp)
          refine ⟨(s1.addCore dst src loc).2, ?_, ?_⟩
          · simp only [hlx, if_true]
          · simp only [hly, if_true]
  · -- dst fresh, src in net ns
    have hbd1 : s1.backptr dst = none := by rw [hbp2]; exact hbd
    have hbs1 : s1.backptr src = some ns := by rw [hbp2]; exact hbs
    obtain ⟨pw, pt, -, pbp, -, -, -, -, -, -, -⟩ :=
      ResetMap.add_spec_none_some s1 dst src loc ns hw2 ht2 hdm hsm hbd1 hbs1
    rw [hbp2] at pbp
    have hsd : src ≠ dst := by
      intro he
      rw [he, hbd] at hbs
      exact Option.noConfusion hbs
    refine ⟨pw, pt, ?_, ?_⟩
    · intro x
      rw [pbp]
      dsimp only
      by_cases hx : x = dst
      · subst hx
        simp
      · simp only [hx, if_false]
        constructor
        · exact fun h => Or.inl h
        · rintro (h | hF | rfl)
          · exact h
          · exact hF.elim
          · rw [hbs]; simp
    · intro x y
      unfold ResetMap.clsEq ResetMap.linked ResetMap.clsEq
      rw [pbp]
      dsimp only
      constructor
      · rintro ⟨n, e1, e2⟩
        by_cases hx : x = dst <;> by_cases hy : y = dst
        · subst hx; subst hy
          right
          exact ⟨Or.inl rfl, Or.inl rfl⟩
        · subst hx
          simp only [if_true] at e1
          simp only [hy, if_false] at e2
          injection e1 with e1
          subst e1
          right
          refine ⟨Or.inl rfl, Or.inr (Or.inr (Or.inr ⟨ns, e2, hbs⟩))⟩
        · subst hy
          simp only [if_true] at e2
          simp only [hx, if_false] at e1
          injection e2 with e2
          subst e2
          right
          refine ⟨Or.inr (Or.inr (Or.inr ⟨ns, e1, hbs⟩)), Or.inl rfl⟩
        · simp only [hx, if_false] at e1
          simp only [hy, if_false] at e2
          exact Or.inl ⟨n, e1, e2⟩
      · rintro (⟨n, e1, e2⟩ | ⟨lx, ly⟩)
        · have hx : x ≠ dst := by
            rintro rfl
            rw [hbd] at e1; exact Option.noConfusion e1
          have hy : y ≠ dst := by
            rintro rfl
            rw [hbd] at e2; exact Option.noConfusion e2
          refine ⟨n, ?_, ?_⟩
          · simp only [hx, if_false]; exact e1
          · simp only [hy, if_false]; exact e2
        · have hbx : ∀ z, (z = dst ∨ z = src ∨ s0.clsEq z dst ∨ s0.clsEq z src) →
              (if z = dst then some ns else s0.backptr z) = some ns := by
            rintro z (rfl | rfl | ⟨n, -, e⟩ | ⟨n, e1, e2⟩)
            · simp
            · simp only [hsd, if_false]; exact hbs
            · rw [hbd] at e; exact absurd e (by simp)
            · rw [hbs] at e2
              injection e2 with e2
              subst e2
              by_cases hzd : z = dst
              · subst hzd
                rw [hbd] at e1
                exact absurd e1 (by simp)
              · simp only [hzd, if_false]; exact e1
          exact ⟨ns, hbx x lx, hbx y ly⟩
  · -- dst in net nd, src fresh
    have hbd1 : s1.backptr dst = some nd := by rw [hbp2]; exact hbd
    have hbs1 : s1.backptr src = none := by rw [hbp2]; exact hbs
    obtain ⟨pw, pt, -, pbp, -, -, -, -, -, -, -⟩ :=
      ResetMap.add_spec_some_none s1 dst src loc nd hw2 ht2 hdm hsm hbd1 hbs1
    rw [hbp2] at pbp
    have hsd : src ≠ dst := by
      intro he
      rw [he, hbd] at hbs
      exact Option.noConfusion hbs
    refine ⟨pw, pt, ?_, ?_⟩
    · intro x
      rw [pbp]
      dsimp only
      by_cases hx : x = src
      · subst hx
        simp
      · simp only [hx, if_false]
        constructor
        · exact fun h => Or.inl h
        · rintro (h | rfl | hF)
          · exact h
          · rw [hbd]; simp
          · exact hF.elim
    · intro x y
      unfold ResetMap.clsEq ResetMap.linked ResetMap.clsEq
      rw [pbp]
      dsimp only
      constructor
      · rintro ⟨n, e1, e2⟩
        by_cases hx : x = src <;> by_cases hy : y = src
        · subst hx; subst hy
          right
          exact ⟨Or.inr (Or.inl rfl), Or.inr (Or.inl rfl)⟩
        · subst hx
          simp only [if_true] at e1
          simp only [hy, if_false] at e2
          injection e1 with e1
          subst e1
          right
          refine ⟨Or.inr (Or.inl rfl), Or.inr (Or.inr (Or.inl ⟨nd, e2, hbd⟩))⟩
        · subst hy
          simp only [if_true] at e2
          simp only [hx, if_false] at e1
          injection e2 with e2
          subst e2
          right
          refine ⟨Or.inr (Or.inr (Or.inl ⟨nd, e1, hbd⟩)), Or.inr (Or.inl rfl)⟩
        · simp only [hx, if_false] at e1
          simp only [hy, if_false] at e2
          exact Or.inl ⟨n, e1, e2⟩
      · rintro (⟨n, e1, e2⟩ | ⟨lx, ly⟩)
        · have hx : x ≠ src := by
            rintro rfl
            rw [hbs] at e1; exact Option.noConfusion e1
          have hy : y ≠ src := by
            rintro rfl
            rw [hbs] at e2; exact Option.noConfusion e2
          refine ⟨n, ?_, ?_⟩
          · simp only [hx, if_false]; exact e1
          · simp only [hy, if_false]; exact e2
        · have hbx : ∀ z, (z = dst ∨ z = src ∨ s0.clsEq z dst ∨ s0.clsEq z src) →
              (if z = src then some nd else s0.backptr z) = some nd := by
            rintro z (rfl | rfl | ⟨n, e1, e2⟩ | ⟨n, -, e⟩)
            · rw [if_neg (fun h => hsd h.symm)]
              exact hbd
            · simp
            · rw [hbd] at e2
              injection e2 with e2
              subst e2
              by_cases hzs : z = src
              · subst hzs
                rw [hbs] at e1
                exact absurd e1 (by simp)
              · simp only [hzs, if_false]; exact e1
            · rw [hbs] at e; exact absurd e (by simp)
          exact ⟨nd, hbx x lx, hbx y ly⟩
  · -- both have nets
    have hbd1 : s1.backptr dst = some nd := by rw [hbp2]; exact hbd
    have hbs1 : s1.backptr src = some ns := by rw [hbp2]; exact hbs
    by_cases hne : nd = ns
    · subst hne
      obtain ⟨pw, pt, -, pbp, -, -, -, -, -, -⟩ :=
        ResetMap.add_spec_same s1 dst src loc nd hw2 ht2 hdm hsm hbd1 hbs1
      rw [hbp2] at pbp
      refine ⟨pw, pt, ?_, ?_⟩
      · intro x
        rw [pbp]
        constructor
        · exact fun h => Or.inl h
        · rintro (h | rfl | rfl)
          · exact h
          · rw [hbd]; simp
          · rw [hbs]; simp
      · intro x y
        unfold ResetMap.clsEq ResetMap.linked ResetMap.clsEq
        rw [pbp]
        constructor
        · exact fun h => Or.inl h
        · rintro (h | ⟨lx, ly⟩)
          · exact h
          · have hbx : ∀ z, (z = dst ∨ z = src ∨ s0.clsEq z dst ∨ s0.clsEq z src) →
                s0.backptr z = some nd := by
              rintro z (rfl | rfl | ⟨n, e1, e2⟩ | ⟨n, e1, e2⟩)
              · exact hbd
              · exact hbs
              · rw [hbd] at e2
                injection e2 with e2
                subst e2
                exact e1
              · rw [hbs] at e2
                injection e2 with e2
                subst e2
                exact e1
            exact ⟨nd, hbx x lx, hbx y ly⟩
    · -- merge
      set W := if (s1.netNodes nd).length < (s1.netNodes ns).length then ns else nd with hW
      set L := if (s1.netNodes nd).length < (s1.netNodes ns).length then nd else ns with hL
      have hrel := ResetMap.add_merge_backptr_relabel s1 dst src loc nd ns W L
        hw2 ht2 hdm hsm hbd1 hbs1 hne hW hL
      obtain ⟨pw, -, -, -, -, hwlne, -, -, -, -, -, -, -, -, -, -, -, pnl⟩ :=
        ResetMap.add_spec_merge s1 dst src loc nd ns W L hw2 hdm hsm hbd1 hbs1 hne hW hL
      have hWL : (W = ns ∧ L = nd) ∨ (W = nd ∧ L = ns) := by
        rw [hW, hL]
        by_cases h : (s1.netNodes nd).length < (s1.netNodes ns).length
        · simp [h]
        · simp [h]
      have hrel2 : ∀ x, (s1.addCore dst src loc).1.backptr x
          = if s0.backptr x = some L then some W else s0.backptr x := by
        intro x
        rw [hrel x, hbp2]
      have pt : (s1.addCore dst src loc).1.Tight := by
        intro x hx
        rw [hrel2 x] at hx
        have hxn : s0.backptr x ≠ none := by
          by_cases hb : s0.backptr x = some L
          · rw [hb]; simp
          · simp only [hb, if_false] at hx
            exact hx
        have hmem := ht x hxn
        rw [pnl, hs1, ResetMap.getNode_mem_nodeList, ResetMap.getNode_mem_nodeList]
        right; right; exact hmem
      have hlinked : ∀ z, (z = dst ∨ z = src ∨ s0.clsEq z dst ∨ s0.clsEq z src) →
          (s0.backptr z = some nd ∨ s0.backptr z = some ns) := by
        rintro z (rfl | rfl | ⟨n, e1, e2⟩ | ⟨n, e1, e2⟩)
        · exact Or.inl hbd
        · exact Or.inr hbs
        · rw [hbd] at e2
          injection e2 with e2
          subst e2
          exact Or.inl e1
        · rw [hbs] at e2
          injection e2 with e2
          subst e2
          exact Or.inr e1
      have hndns_W : ∀ z, (s0.backptr z = some nd ∨ s0.backptr z = some ns) →
          (if s0.backptr z = some L then some W else s0.backptr z) = some W := by
        intro z hz
        have hzWL : s0.backptr z = some W ∨ s0.backptr z = some L := by
          rcases hWL with ⟨hw', hl'⟩ | ⟨hw', hl'⟩
          · rw [hw', hl']
            exact hz.symm
          · rw [hw', hl']
            exact hz
        rcases hzWL with hz' | hz'
        · have hne' : ¬(s0.backptr z = some L) := by
            rw [hz']
            intro he
            injection he with he
            exact hwlne he
          rw [if_neg hne', hz']
        · rw [if_pos hz']
      refine ⟨pw, pt, ?_, ?_⟩
      · intro x
        rw [hrel2 x]
        by_cases hb : s0.backptr x = some L
        · rw [if_pos hb]
          constructor
          · intro _
            left
            rw [hb]
            simp
          · intro _
            simp
        · rw [if_neg hb]
          constructor
          · exact fun h => Or.inl h
          · rintro (h | rfl | rfl)
            · exact h
            · rw [hbd]; simp
            · rw [hbs]; simp
      · intro x y
        unfold ResetMap.clsEq ResetMap.linked ResetMap.clsEq
        constructor
        · rintro ⟨n, e1, e2⟩
          rw [hrel2 x] at e1
          rw [hrel2 y] at e2
          by_cases hn : n = W
          · subst hn
            have hzx : s0.backptr x = some W ∨ s0.backptr x = some L := by
              by_cases hb : s0.backptr x = some L
              · exact Or.inr hb
              · rw [if_neg hb] at e1
                exact Or.inl e1
            have hzy : s0.backptr y = some W ∨ s0.backptr y = some L := by
              by_cases hb : s0.backptr y = some L
              · exact Or.inr hb
              · rw [if_neg hb] at e2
                exact Or.inl e2
            have hlink : ∀ z, (s0.backptr z = some W ∨ s0.backptr z = some L) →
                (z = dst ∨ z = src ∨ s0.clsEq z dst ∨ s0.clsEq z src) := by
              intro z hz
              have : s0.backptr z = some nd ∨ s0.backptr z = some ns := by
                rcases hWL with ⟨hw', hl'⟩ | ⟨hw', hl'⟩
                · rw [hw', hl'] at hz
                  exact hz.symm
                · rw [hw', hl'] at hz
                  exact hz
              rcases this with hz' | hz'
              · exact Or.inr (Or.inr (Or.inl ⟨nd, hz', hbd⟩))
              · exact Or.inr (Or.inr (Or.inr ⟨ns, hz', hbs⟩))
            exact Or.inr ⟨hlink x hzx, hlink y hzy⟩
          · have hx : s0.backptr x = some n := by
              by_cases hb : s0.backptr x = some L
              · rw [if_pos hb] at e1
                injection e1 with e1
                exact absurd e1.symm hn
              · rw [if_neg hb] at e1
                exact e1
            have hy : s0.backptr y = some n := by
              by_cases hb : s0.backptr y = some L
              · rw [if_pos hb] at e2
                injection e2 with e2
                exact absurd e2.symm hn
              · rw [if_neg hb] at e2
                exact e2
            exact Or.inl ⟨n, hx, hy⟩
        · rintro (⟨n, e1, e2⟩ | ⟨lx, ly⟩)
          · by_cases hnL : n = L
            · subst hnL
              refine ⟨W, ?_, ?_⟩
              · rw [hrel2 x, if_pos e1]
              · rw [hrel2 y, if_pos e2]
            · refine ⟨n, ?_, ?_⟩
              · rw [hrel2 x, if_neg (by rw [e1]; intro he; injection he with he; exact hnL he)]
                exact e1
              · rw [hrel2 y, if_neg (by rw [e2]; intro he; injection he with he; exact hnL he)]
                exact e2
          · refine ⟨W, ?_, ?_⟩
            · rw [hrel2 x]
              exact hndns_W x (hlinked x lx)
            · rw [hrel2 y]
              exact hndns_W y (hlinked y ly)

/-! ### Connectivity by paths of drives -/

/-- A field reference is an endpoint of one of the recorded `add` calls. -/
def touched (ops : List AddOp) (x : FieldRef) : Prop :=
  ∃ op ∈ ops, op.dst = x ∨ op.src = x

/-- Two field references are connected by a path of drives from `ops`
    (the reflexive symmetric transitive closure of the drive edges). -/
inductive Conn (ops : List AddOp) : FieldRef → FieldRef → Prop where
  | drive (op : AddOp) (hop : op ∈ ops) : Conn ops op.dst op.src
  | refl (x : FieldRef) : Conn ops x x
  | symm {x y : FieldRef} : Conn ops x y → Conn ops y x
  | trans {x y z : FieldRef} : Conn ops x y → Conn ops y z → Conn ops x z

theorem touched_append (ops : List AddOp) (op : AddOp) (x : FieldRef) :
    touched (ops ++ [op]) x ↔ touched ops x ∨ x = op.dst ∨ x = op.src := by
  unfold touched
  constructor
  · rintro ⟨o, ho, he⟩
    rcases List.mem_append.mp ho with ho | ho
    · exact Or.inl ⟨o, ho, he⟩
    · simp at ho
      subst ho
      rcases he with he | he
      · exact Or.inr (Or.inl he.symm)
      · exact Or.inr (Or.inr he.symm)
  · rintro (⟨o, ho, he⟩ | he | he)
    · exact ⟨o, List.mem_append.mpr (Or.inl ho), he⟩
    · exact ⟨op, List.mem_append.mpr (Or.inr (by simp)), Or.inl he.symm⟩
    · exact ⟨op, List.mem_append.mpr (Or.inr (by simp)), Or.inr he.symm⟩

theorem Conn.mono (ops : List AddOp) (op : AddOp) {x y : FieldRef} (h : Conn ops x y) :
    Conn (ops ++ [op]) x y := by
  induction h with
  | drive o ho => exact Conn.drive o (List.mem_append.mpr (Or.inl ho))
  | refl x => exact Conn.refl x
  | symm _ ih => exact Conn.symm ih
  | trans _ _ ih1 ih2 => exact Conn.trans ih1 ih2

theorem Conn.touched_of (ops : List AddOp) {x y : FieldRef} (h : Conn ops x y) :
    x = y ∨ (touched ops x ∧ touched ops y) := by
  induction h with
  | drive o ho => exact Or.inr ⟨⟨o, ho, Or.inl rfl⟩, ⟨o, ho, Or.inr rfl⟩⟩
  | refl x => exact Or.inl rfl
  | symm _ ih => tauto
  | trans _ _ ih1 ih2 =>
      rcases ih1 with rfl | ⟨ha, hb⟩
      · exact ih2
      · rcases ih2 with rfl | ⟨hc, hd⟩
        · exact Or.inr ⟨ha, hb⟩
        · exact Or.inr ⟨ha, hd⟩

theorem Conn.append_iff (ops : List AddOp) (op : AddOp) (x y : FieldRef) :
    Conn (ops ++ [op]) x y ↔
      Conn ops x y ∨
      ((Conn ops x op.dst ∨ Conn ops x op.src) ∧ (Conn ops y op.dst ∨ Conn ops y op.src)) := by
  constructor
  · intro h
    induction h with
    | drive o ho =>
        rcases List.mem_append.mp ho with ho | ho
        · exact Or.inl (Conn.drive o ho)
        · simp at ho
          subst ho
          exact Or.inr ⟨Or.inl (Conn.refl _), Or.inr (Conn.refl _)⟩
    | refl x => exact Or.inl (Conn.refl x)
    | symm _ ih => tauto
    | trans _ _ ih1 ih2 =>
        rcases ih1 with h1 | ⟨hx, hy⟩
        · rcases ih2 with h2 | ⟨hy', hz⟩
          · exact Or.inl (Conn.trans h1 h2)
          · refine Or.inr ⟨?_, hz⟩
            rcases hy' with hy' | hy'
            · exact Or.inl (Conn.trans h1 hy')
            · exact Or.inr (Conn.trans h1 hy')
        · rcases ih2 with h2 | ⟨hy', hz⟩
          · refine Or.inr ⟨hx, ?_⟩
            rcases hy with hy | hy
            · exact Or.inl (Conn.trans (Conn.symm h2) hy)
            · exact Or.inr (Conn.trans (Conn.symm h2) hy)
          · exact Or.inr ⟨hx, hz⟩
  · rintro (h | ⟨hx, hy⟩)
    · exact h.mono ops op
    · have hds : Conn (ops ++ [op]) op.dst op.src :=
        Conn.drive op (List.mem_append.mpr (Or.inr (by simp)))
      have hx' : Conn (ops ++ [op]) x op.dst := by
        rcases hx with h | h
        · exact h.mono ops op
        · exact Conn.trans (h.mono ops op) (Conn.symm hds)
      have hy' : Conn (ops ++ [op]) y op.dst := by
        rcases hy with h | h
        · exact h.mono ops op
        · exact Conn.trans (h.mono ops op) (Conn.symm hds)
      exact Conn.trans hx' (Conn.symm hy')

/-- Main invariant of a run of `add` calls from the empty map: the state is
    well formed, exactly the endpoints of recorded drives have nets, and two
    references share a net back-pointer iff they are both endpoints and
    connected by a path of drives. -/
theorem runAdds_props (ops : List AddOp) :
    (runAdds ops).WF ∧ (runAdds ops).Tight ∧
    (∀ x, ((runAdds ops).backptr x ≠ none) ↔ touched ops x) ∧
    (∀ x y, (runAdds ops).clsEq x y ↔
      (touched ops x ∧ touched ops y ∧ Conn ops x y)) := by
  induction ops using List.reverseRecOn with
  | nil =>
      refine ⟨?_, ?_, ?_, ?_⟩
      · refine ⟨List.nodup_nil, List.nodup_nil, ?_, ?_, ?_, ?_, ?_, ?_, ?_, ?_, List.nodup_nil⟩ <;>
          (intro a ha; exact absurd ha (List.not_mem_nil a))
      · intro x hx
        exact absurd rfl hx
      · intro x
        simp [runAdds, ResetMap.empty, touched]
      · intro x y
        simp [runAdds, ResetMap.empty, ResetMap.clsEq, touched]
  | append_singleton ops op ih =>
      obtain ⟨hw, ht, htc, hcls⟩ := ih
      have hrun : runAdds (ops ++ [op]) =
          ((runAdds ops).addNet op.dst op.dstType op.src op.srcType op.loc).1 := by
        unfold runAdds
        rw [List.foldl_append]
        rfl
      obtain ⟨pw, pt, ptc, pcls⟩ :=
        ResetMap.addNet_props (runAdds ops) op.dst op.dstType op.src op.srcType op.loc hw ht
      rw [hrun]
      refine ⟨pw, pt, ?_, ?_⟩
      · intro x
        rw [ptc x, touched_append, htc x]
      · intro x y
        rw [pcls x y]
        rw [touched_append, touched_append, Conn.append_iff]
        constructor
        · rintro (hc | ⟨lx, ly⟩)
          · rw [hcls x y] at hc
            exact ⟨Or.inl hc.1, Or.inl hc.2.1, Or.inl hc.2.2⟩
          · have hz : ∀ z, (runAdds ops).linked op.dst op.src z →
                ((touched ops z ∨ z = op.dst ∨ z = op.src) ∧
                 (Conn ops z op.dst ∨ Conn ops z op.src)) := by
              rintro z (rfl | rfl | hc | hc)
              · exact ⟨Or.inr (Or.inl rfl), Or.inl (Conn.refl _)⟩
              · exact ⟨Or.inr (Or.inr rfl), Or.inr (Conn.refl _)⟩
              · rw [hcls z op.dst] at hc
                exact ⟨Or.inl hc.1, Or.inl hc.2.2⟩
              · rw [hcls z op.src] at hc
                exact ⟨Or.inl hc.1, Or.inr hc.2.2⟩
            obtain ⟨ha, hb⟩ := hz x lx
            obtain ⟨hc, hd⟩ := hz y ly
            exact ⟨ha, hc, Or.inr ⟨hb, hd⟩⟩
        · rintro ⟨hx, hy, hc | ⟨cx, cy⟩⟩
          · rcases (hc.touched_of ops) with rfl | ⟨tx, ty⟩
            · -- x = y
              rcases hx with tx | rfl | rfl
              · left
                rw [hcls x x]
                exact ⟨tx, tx, Conn.refl x⟩
              · right
                exact ⟨Or.inl rfl, Or.inl rfl⟩
              · right
                exact ⟨Or.inr (Or.inl rfl), Or.inr (Or.inl rfl)⟩
            · left
              rw [hcls x y]
              exact ⟨tx, ty, hc⟩
          · right
            have hz : ∀ z, (Conn ops z op.dst ∨ Conn ops z op.src) →
                (runAdds ops).linked op.dst op.src z := by
              intro z hcz
              rcases hcz with hcz | hcz
              · rcases hcz.touched_of ops with rfl | ⟨tz, td⟩
                · exact Or.inl rfl
                · refine Or.inr (Or.inr (Or.inl ?_))
                  rw [hcls z op.dst]
                  exact ⟨tz, td, hcz⟩
              · rcases hcz.touched_of ops with rfl | ⟨tz, ts⟩
                · exact Or.inr (Or.inl rfl)
                · refine Or.inr (Or.inr (Or.inr ?_))
                  rw [hcls z op.src]
                  exact ⟨tz, ts, hcz⟩
            exact ⟨hz x cx, hz y cy⟩

/-- When both nodes already exist, `addNet` skips node creation and is the
    net-combination step. -/
theorem ResetMap.addNet_of_mem (s : ResetMap) (dst src : FieldRef)
    (dstType srcType : FTy) (loc : Nat)
    (hdm : dst ∈ s.nodeList) (hsm : src ∈ s.nodeList) :
    s.addNet dst dstType src srcType loc = s.addCore dst src loc := by
  unfold ResetMap.addNet
  rw [ResetMap.getNode_of_mem _ _ _ hdm, ResetMap.getNode_of_mem _ _ _ hsm]

/-- C4. For every sequence of `add` operations performed on an initially
    empty reset map, two field references belong to the same live net iff
    both are endpoints of recorded drives and they are connected by a path
    of recorded drives; moreover, no node belongs to the node sets of two
    distinct live nets. -/
theorem claim_C4_union_correct (ops : List AddOp) :
    (∀ x y, (runAdds ops).inSameLiveNet x y ↔
      (touched ops x ∧ touched ops y ∧ Conn ops x y)) ∧
    (∀ n₁ n₂ x, n₁ ∈ (runAdds ops).live → n₂ ∈ (runAdds ops).live →
      x ∈ (runAdds ops).netNodes n₁ → x ∈ (runAdds ops).netNodes n₂ → n₁ = n₂) := by
  obtain ⟨hw, ht, -, hcls⟩ := runAdds_props ops
  constructor
  · intro x y
    rw [ResetMap.clsEq_iff_inSameLiveNet _ hw ht x y, hcls x y]
  · intro n₁ n₂ x h1 h2 hx1 hx2
    obtain ⟨-, -, -, -, -, -, -, -, h9, -, -⟩ := hw
    have e1 := (h9 n₁ h1 x hx1).2
    have e2 := (h9 n₂ h2 x hx2).2
    rw [e1] at e2
    exact Option.some.inj e2

/-- C5. When the destination and source nodes already belong to two distinct
    nets, `ResetMap::add` keeps the net with the larger node set (ties keep
    the destination's net): every node of the smaller net has its
    back-pointer rewritten to the survivor and is inserted into the
    survivor's node set, the smaller net's drives are appended to the
    survivor, the smaller net is abandoned to the free list, and the one new
    drive record `(dst, src, loc)` is appended to the surviving net; and in
    every case (fresh net, one-sided insert, same net, or merge) exactly one
    new drive record is appended to the resulting net while every other
    live net's drive list is unchanged. -/
theorem claim_C5_merge_and_single_drive :
    (∀ (s : ResetMap) (dst src : FieldRef) (dstType srcType : FTy) (loc : Nat) (nd ns : Nat),
      s.WF → dst ∈ s.nodeList → src ∈ s.nodeList →
      s.backptr dst = some nd → s.backptr src = some ns → nd ≠ ns →
      ∀ win lose : Nat,
      win = (if (s.netNodes nd).length < (s.netNodes ns).length then ns else nd) →
      lose = (if (s.netNodes nd).length < (s.netNodes ns).length then nd else ns) →
      (s.addNet dst dstType src srcType loc).2 = win ∧
      (s.netNodes lose).length ≤ (s.netNodes win).length ∧
      (∀ x ∈ s.netNodes lose,
        (s.addNet dst dstType src srcType loc).1.backptr x = some win ∧
        x ∈ (s.addNet dst dstType src srcType loc).1.netNodes win) ∧
      (s.addNet dst dstType src srcType loc).1.netNodes win
        = s.netNodes win ++ s.netNodes lose ∧
      (s.addNet dst dstType src srcType loc).1.netDrives win
        = s.netDrives win ++ s.netDrives lose ++ [⟨dst, src, loc⟩] ∧
      win ∈ (s.addNet dst dstType src srcType loc).1.live ∧
      lose ∉ (s.addNet dst dstType src srcType loc).1.live ∧
      lose ∈ (s.addNet dst dstType src srcType loc).1.unused) ∧
    (∀ (s : ResetMap) (dst src : FieldRef) (dstType srcType : FTy) (loc : Nat),
      s.WF → s.Tight →
      ∃ pre : List ResetDrive,
        (s.addNet dst dstType src srcType loc).1.netDrives
          (s.addNet dst dstType src srcType loc).2 = pre ++ [⟨dst, src, loc⟩] ∧
        ∀ m ∈ (s.addNet dst dstType src srcType loc).1.live,
          m ≠ (s.addNet dst dstType src srcType loc).2 →
          (s.addNet dst dstType src srcType loc).1.netDrives m = s.netDrives m) := by
  constructor
  · intro s dst src dstType srcType loc nd ns hw hdm hsm hd hs hne win lose hwin hlose
    rw [ResetMap.addNet_of_mem s dst src dstType srcType loc hdm hsm]
    obtain ⟨-, p2, -, -, -, -, p7, p8, -, p10, p11, p12, -, -, p15, p16, -, -⟩ :=
      ResetMap.add_spec_merge s dst src loc nd ns win lose hw hdm hsm hd hs hne hwin hlose
    exact ⟨p2, p11, p15, p12, p16, p7, p8, p10⟩
  · intro s dst src dstType srcType loc hw ht
    have hw1 := ResetMap.getNode_WF s dst dstType hw ht
    have ht1 := ResetMap.getNode_Tight s dst dstType ht
    have hw2 := ResetMap.getNode_WF _ src srcType hw1 ht1
    have ht2 := ResetMap.getNode_Tight _ src srcType ht1
    have hbp2 : ((s.getNode dst dstType).getNode src srcType).backptr = s.backptr := by
      rw [ResetMap.getNode_backptr _ src srcType ht1, ResetMap.getNode_backptr s dst dstType ht]
    have hnn2 : ((s.getNode dst dstType).getNode src srcType).netNodes = s.netNodes := by
      rw [ResetMap.getNode_netNodes, ResetMap.getNode_netNodes]
    have hnd2 : ((s.getNode dst dstType).getNode src srcType).netDrives = s.netDrives := by
      rw [ResetMap.getNode_netDrives, ResetMap.getNode_netDrives]
    have hdm : dst ∈ ((s.getNode dst dstType).getNode src srcType).nodeList := by
      rw [ResetMap.getNode_mem_nodeList, ResetMap.getNode_mem_nodeList]
      right; left; rfl
    have hsm : src ∈ ((s.getNode dst dstType).getNode src srcType).nodeList := by
      rw [ResetMap.getNode_mem_nodeList]
      left; rfl
    unfold ResetMap.addNet
    set s1 := (s.getNode dst dstType).getNode src srcType with hs1
    rcases hbd : s1.backptr dst with _ | nd <;> rcases hbs : s1.backptr src with _ | ns
    · obtain ⟨-, -, -, -, -, -, -, -, pdr, pdo, -⟩ :=
        ResetMap.add_spec_none_none s1 dst src loc hw2 ht2 hdm hsm hbd hbs
      refine ⟨[], by rw [pdr]; rfl, ?_⟩
      intro m hm hmne
      rw [pdo m hmne, hnd2]
    · obtain ⟨-, -, pid, -, -, -, -, -, pdr, pdo, -⟩ :=
        ResetMap.add_spec_none_some s1 dst src loc ns hw2 ht2 hdm hsm hbd hbs
      refine ⟨s.netDrives ns, ?_, ?_⟩
      · rw [pid, pdr, hnd2]
      · intro m hm hmne
        rw [pid] at hmne
        rw [pdo m hmne, hnd2]
    · obtain ⟨-, -, pid, -, -, -, -, -, pdr, pdo, -⟩ :=
        ResetMap.add_spec_some_none s1 dst src loc nd hw2 ht2 hdm hsm hbd hbs
      refine ⟨s.netDrives nd, ?_, ?_⟩
      · rw [pid, pdr, hnd2]
      · intro m hm hmne
        rw [pid] at hmne
        rw [pdo m hmne, hnd2]
    · by_cases hne : nd = ns
      · subst hne
        obtain ⟨-, -, pid, -, -, -, -, pdr, pdo, -⟩ :=
          ResetMap.add_spec_same s1 dst src loc nd hw2 ht2 hdm hsm hbd hbs
        refine ⟨s.netDrives nd, ?_, ?_⟩
        · rw [pid, pdr, hnd2]
        · intro m hm hmne
          rw [pid] at hmne
          rw [pdo m hmne, hnd2]
      · obtain ⟨-, p2, -, -, -, -, -, p8, p9, -, -, -, -, -, -, p16, p17, -⟩ :=
          ResetMap.add_spec_merge s1 dst src loc nd ns
            (if (s1.netNodes nd).length < (s1.netNodes ns).length then ns else nd)
            (if (s1.netNodes nd).length < (s1.netNodes ns).length then nd else ns)
            hw2 hdm hsm hbd hbs hne rfl rfl
        refine ⟨s.netDrives
            (if (s1.netNodes nd).length < (s1.netNodes ns).length then ns else nd) ++
          s.netDrives
            (if (s1.netNodes nd).length < (s1.netNodes ns).length then nd else ns), ?_, ?_⟩
        · rw [p2, p16, hnd2, List.append_assoc]
        · intro m hm hmne
          rw [p2] at hmne
          have hml : m ≠
              (if (s1.netNodes nd).length < (s1.netNodes ns).length then nd else ns) := by
            intro he
            rw [p9] at hm
            rw [List.mem_filter] at hm
            simp at hm
            exact hm.2 he
          rw [p17 m hmne hml, hnd2]

/-- A concrete reset map with two disjoint two-node nets, used to witness
    the merge behaviour. -/
def c5ex : ResetMap :=
  runAdds [⟨(0, 0), .reset, (1, 0), .uint 1, 0⟩, ⟨(2, 0), .reset, (3, 0), .reset, 1⟩]

/-- Witness for C5: merging the two nets of `c5ex` keeps net 0 (the
    destination's net, of equal size), migrates net 1's nodes, concatenates
    the drive lists and appends exactly the one new drive. -/
theorem claim_C5_merge_and_single_drive_witness :
    (c5ex.addNet (0, 0) .reset (2, 0) .reset 7).2 = 0 ∧
    (c5ex.addNet (0, 0) .reset (2, 0) .reset 7).1.netNodes 0
      = c5ex.netNodes 0 ++ c5ex.netNodes 1 ∧
    (c5ex.addNet (0, 0) .reset (2, 0) .reset 7).1.netDrives 0
      = c5ex.netDrives 0 ++ c5ex.netDrives 1 ++ [⟨(0, 0), (2, 0), 7⟩] ∧
    (1 ∉ (c5ex.addNet (0, 0) .reset (2, 0) .reset 7).1.live ∧
     1 ∈ (c5ex.addNet (0, 0) .reset (2, 0) .reset 7).1.unused) ∧
    (∃ pre : List ResetDrive,
      (c5ex.addNet (0, 0) .reset (2, 0) .reset 7).1.netDrives
        (c5ex.addNet (0, 0) .reset (2, 0) .reset 7).2 = pre ++ [⟨(0, 0), (2, 0), 7⟩] ∧
      ∀ m ∈ (c5ex.addNet (0, 0) .reset (2, 0) .reset 7).1.live,
        m ≠ (c5ex.addNet (0, 0) .reset (2, 0) .reset 7).2 →
        (c5ex.addNet (0, 0) .reset (2, 0) .reset 7).1.netDrives m = c5ex.netDrives m) := by
  have hw : c5ex.WF := (runAdds_props _).1
  have ht : c5ex.Tight := (runAdds_props _).2.1
  obtain ⟨hm, hone⟩ := claim_C5_merge_and_single_drive
  have h := hm c5ex (0, 0) (2, 0) .reset .reset 7 0 1 hw (by decide) (by decide)
    (by decide) (by decide) (by decide) 0 1 (by decide) (by decide)
  exact ⟨h.1, h.2.2.2.1, h.2.2.2.2.1, ⟨h.2.2.2.2.2.2.1, h.2.2.2.2.2.2.2⟩,
    hone c5ex (0, 0) (2, 0) .reset .reset 7 hw ht⟩

/-! ## Reset inference (`InferResetsPass::inferReset`)

The vote-tallying loop walks a net's nodes.  For every node it first checks
`isResetType`, then classifies the node as an async vote
(`isa<AsyncResetType>`), a sync vote (`isa<UIntType>`), or an invalid-value
vote — the last test being `isa<InvalidValueOp>(node->value.getDefiningOp())`,
which is applied to a null pointer when the value is a block argument
(a module port): LLVM's `isa<>` asserts on null there.
-/

/-- What defines a node's IR value: a block argument (module port) has no
    defining operation, otherwise we record the defining op's kind. -/
inductive DefOp where
  | blockArg
  | wire
  | node
  | reg
  | regReset
  | inst
  | invalidValue
  | subfield
  | other
deriving DecidableEq, Repr

/-- A node of a reset net as inference sees it: its recorded type and what
    defines its value. -/
structure RNode where
  ty : FTy
  defop : DefOp

instance : DecidableEq RNode := fun a b =>
  match a, b with
  | ⟨t1, d1⟩, ⟨t2, d2⟩ =>
      match decEq t1 t2, decEq d1 d2 with
      | isTrue h1, isTrue h2 => isTrue (by rw [h1, h2])
      | isFalse h1, _ => isFalse (fun h => h1 (by cases h; rfl))
      | _, isFalse h2 => isFalse (fun h => h2 (by cases h; rfl))

/-- Outcome of `inferReset` on one net. -/
inductive InferOutcome where
  | crashNullIsa
  | errNonResetType
  | errNeverDriven
  | errMixed (majorityAsync : Bool)
  | ok (kind : ResetKind)
deriving DecidableEq, Repr

/-- `type.isa<UIntType>()`. -/
def isUIntTy : FTy → Bool
  | .uint _ => true
  | _ => false

/-- The per-node loop of `inferReset` (the reset-type check and the
    async/sync/invalid tally), with the three counters as accumulators.
    A node that reaches the invalid-value test while being a block argument
    makes the loop apply `isa<>` to a null defining op: modelled as
    `crashNullIsa`. -/
def tallyVotes : List RNode → Nat → Nat → Nat → Sum InferOutcome (Nat × Nat × Nat)
  | [], a, sy, i => .inr (a, sy, i)
  | n :: ns, a, sy, i =>
      if n.ty.isResetType = false then .inl .errNonResetType
      else if n.ty = .asyncReset then tallyVotes ns (a + 1) sy i
      else if isUIntTy n.ty then tallyVotes ns a (sy + 1) i
      else if n.defop = .blockArg then .inl .crashNullIsa
      else if n.defop = .invalidValue then tallyVotes ns a sy (i + 1)
      else tallyVotes ns a sy i

/-- `InferResetsPass::inferReset` on a net's node list: tally the votes,
    error when nothing voted, error when async and sync votes are mixed
    (majority arm `async ≥ sync`), otherwise async wins over sync. -/
def inferReset (nodes : List RNode) : InferOutcome :=
  match tallyVotes nodes 0 0 0 with
  | .inl e => e
  | .inr (a, sy, i) =>
      if a = 0 ∧ sy = 0 ∧ i = 0 then .errNeverDriven
      else if 0 < a ∧ 0 < sy then .errMixed (sy ≤ a)
      else .ok (if 0 < a then .async else .sync)

/-- Number of async votes of a net (nodes of async-reset type). -/
def asyncVotes (nodes : List RNode) : Nat :=
  nodes.countP (fun n => decide (n.ty = .asyncReset))

/-- Number of sync votes of a net (nodes of `uint` type). -/
def syncVotes (nodes : List RNode) : Nat :=
  nodes.countP (fun n => decide (n.ty ≠ .asyncReset) && isUIntTy n.ty)

/-- Number of invalid-value votes of a net. -/
def invalidVotes (nodes : List RNode) : Nat :=
  nodes.countP (fun n =>
    decide (n.ty ≠ .asyncReset) && !isUIntTy n.ty && decide (n.defop = .invalidValue))

theorem tallyVotes_counts : ∀ (nodes : List RNode) (a sy i : Nat),
    (∀ n ∈ nodes, n.ty.isResetType = true) →
    (∀ n ∈ nodes, n.ty = .reset → n.defop ≠ .blockArg) →
    tallyVotes nodes a sy i
      = .inr (a + asyncVotes nodes, sy + syncVotes nodes, i + invalidVotes nodes) := by
  intro nodes
  induction nodes with
  | nil => intro a sy i _ _; simp [tallyVotes, asyncVotes, syncVotes, invalidVotes]
  | cons n ns ih =>
      intro a sy i h1 h2
      have hn1 := h1 n (by simp)
      have hih : ∀ a' sy' i', tallyVotes ns a' sy' i'
          = .inr (a' + asyncVotes ns, sy' + syncVotes ns, i' + invalidVotes ns) :=
        fun a' sy' i' => ih a' sy' i' (fun m hm => h1 m (by simp [hm]))
          (fun m hm => h2 m (by simp [hm]))
      unfold tallyVotes
      rw [hn1]
      simp only [Bool.true_eq_false, if_false]
      by_cases ha : n.ty = .asyncReset
      · rw [if_pos ha, hih]
        unfold asyncVotes syncVotes invalidVotes
        rw [List.countP_cons, List.countP_cons, List.countP_cons]
        simp [ha, isUIntTy]
        omega
      · rw [if_neg ha]
        by_cases hu : isUIntTy n.ty = true
        · rw [if_pos hu, hih]
          unfold asyncVotes syncVotes invalidVotes
          rw [List.countP_cons, List.countP_cons, List.countP_cons]
          have hnu : ¬ (n.ty = FTy.asyncReset) := ha
          simp [ha, hu]
          omega
        · rw [if_neg (by simpa using hu)]
          have hreset : n.ty = .reset := by
            cases hty : n.ty <;>
              first
              | rfl
              | (exact absurd hty ha)
              | (exact absurd (by rw [hty]; rfl) hu)
              | (rw [hty] at hn1; simp [FTy.isResetType] at hn1)
          have hba : ¬ (n.defop = DefOp.blockArg) := h2 n (by simp) hreset
          rw [if_neg hba]
          by_cases hi : n.defop = .invalidValue
          · rw [if_pos hi, hih]
            unfold asyncVotes syncVotes invalidVotes
            rw [List.countP_cons, List.countP_cons, List.countP_cons]
            simp [ha, hu, hi]
            omega
          · rw [if_neg hi, hih]
            unfold asyncVotes syncVotes invalidVotes
            rw [List.countP_cons, List.countP_cons, List.countP_cons]
            simp [ha, hu, hi]

/-- The vote rule of `inferReset`, valid on nets where the vote loop is
    total (no abstract-typed block-argument node, see C10): inference fails
    iff there is no vote at all or both async and sync votes exist; on
    success the kind is async iff some async vote exists (so a net whose
    only votes are invalid-value ops becomes sync). -/
theorem inferReset_vote_rule (nodes : List RNode)
    (h1 : ∀ n ∈ nodes, n.ty.isResetType = true)
    (h2 : ∀ n ∈ nodes, n.ty = .reset → n.defop ≠ .blockArg) :
    ((¬ ∃ k, inferReset nodes = .ok k) ↔
      ((asyncVotes nodes = 0 ∧ syncVotes nodes = 0 ∧ invalidVotes nodes = 0) ∨
       (0 < asyncVotes nodes ∧ 0 < syncVotes nodes))) ∧
    (∀ k, inferReset nodes = .ok k →
      k = (if 0 < asyncVotes nodes then ResetKind.async else ResetKind.sync)) := by
  unfold inferReset
  rw [tallyVotes_counts nodes 0 0 0 h1 h2]
  simp only [Nat.zero_add]
  by_cases hz : asyncVotes nodes = 0 ∧ syncVotes nodes = 0 ∧ invalidVotes nodes = 0
  · rw [if_pos hz]
    constructor
    · simp [hz]
    · intro k hk
      exact absurd hk (by simp)
  · rw [if_neg hz]
    by_cases hm : 0 < asyncVotes nodes ∧ 0 < syncVotes nodes
    · rw [if_pos hm]
      constructor
      · simp [hm]
      · intro k hk
        exact absurd hk (by simp)
    · rw [if_neg hm]
      constructor
      · constructor
        · intro h
          exact absurd ⟨_, rfl⟩ h
        · intro h
          rcases h with h | h
          · exact absurd h hz
          · exact absurd h hm
      · intro k hk
        simp at hk
        exact hk.symm

/-- A net consisting of an abstract-reset-typed module port and a
    `uint<1>`-typed wire: per the spec, inference should succeed as sync. -/
def c3net : List RNode := [⟨.uint 1, .wire⟩, ⟨.reset, .blockArg⟩]

/-- C3 (code bug). On `c3net` — a net all of whose nodes have reset types,
    with one sync vote and no async vote — the claim says inference
    succeeds with kind sync, but the vote loop hits the abstract-typed
    block-argument node and applies `isa<InvalidValueOp>` to its null
    defining op (an LLVM `isa<>` assertion failure) instead. -/
theorem claim_C3_crash_on_sync_voted_net :
    (∀ n ∈ c3net, n.ty.isResetType = true) ∧
    syncVotes c3net = 1 ∧ asyncVotes c3net = 0 ∧
    inferReset c3net = .crashNullIsa ∧
    InferOutcome.crashNullIsa ≠ .ok .sync := by
  decide

/-- A net containing an abstract-reset-typed module port (as produced by
    tracing any connected `reset`-typed port). -/
def c10net : List RNode := [⟨.reset, .blockArg⟩, ⟨.uint 1, .wire⟩]

/-- C10 (code bug). The vote-tallying loop is not total: on a net whose
    abstract-reset-typed node is a block argument (a module port, with no
    defining operation), the loop applies the `isa<InvalidValueOp>` class
    test to a null defining-op pointer instead of completing. -/
theorem claim_C10_crash_on_port_node :
    (∀ n ∈ c10net, n.ty.isResetType = true) ∧
    inferReset c10net = .crashNullIsa := by
  decide

/-! ## Type updating (`InferResetsPass::updateReset`) -/

mutual

theorem validLeafID_updateType : ∀ (t : FTy) (fother : Nat) (c : FTy) (f : Nat),
    c.isGround = true → validLeafID t f = true →
    validLeafID (updateType t fother c) f = true
  | .bundle elems, fother, c, f, hc, hv => by
      unfold validLeafID at hv
      by_cases h0 : f = 0
      · simp [h0] at hv
      · simp only [h0, if_false] at hv
        unfold updateType validLeafID
        simp only [h0, if_false]
        exact validLeafIDList_updateTypeList elems fother c f hc hv
  | .vector elem len, fother, c, f, hc, hv => by
      unfold validLeafID at hv
      by_cases h0 : f = 0
      · simp [h0] at hv
      · simp only [h0, if_false] at hv
        unfold updateType validLeafID
        simp only [h0, if_false]
        rw [maxFieldID_updateType elem _ c hc]
        simp only [Bool.and_eq_true, decide_eq_true_eq] at hv ⊢
        exact ⟨hv.1, validLeafID_updateType elem _ c _ hc hv.2⟩
  | .uint w, fother, c, f, hc, hv => by
      unfold validLeafID at hv
      cases c <;> simp_all [updateType, validLeafID, FTy.isGround]
  | .sint w, fother, c, f, hc, hv => by
      unfold validLeafID at hv
      cases c <;> simp_all [updateType, validLeafID, FTy.isGround]
  | .clock, fother, c, f, hc, hv => by
      unfold validLeafID at hv
      cases c <;> simp_all [updateType, validLeafID, FTy.isGround]
  | .asyncReset, fother, c, f, hc, hv => by
      unfold validLeafID at hv
      cases c <;> simp_all [updateType, validLeafID, FTy.isGround]
  | .reset, fother, c, f, hc, hv => by
      unfold validLeafID at hv
      cases c <;> simp_all [updateType, validLeafID, FTy.isGround]
  | .analog, fother, c, f, hc, hv => by
      unfold validLeafID at hv
      cases c <;> simp_all [updateType, validLeafID, FTy.isGround]

theorem validLeafIDList_updateTypeList : ∀ (elems : List (String × Bool × FTy)) (fother : Nat)
    (c : FTy) (f : Nat), c.isGround = true → validLeafIDList elems f = true →
    validLeafIDList (updateTypeList elems fother c) f = true
  | [], fother, c, f, hc, hv => by simp [validLeafIDList] at hv
  | e :: es, fother, c, f, hc, hv => by
      unfold validLeafIDList at hv
      unfold updateTypeList
      by_cases hfo : fother ≤ 1 + maxFieldID e.2.2
      · simp only [hfo, if_true]
        unfold validLeafIDList
        rw [maxFieldID_updateType e.2.2 _ c hc]
        by_cases hf : f ≤ 1 + maxFieldID e.2.2
        · simp only [hf, if_true] at hv ⊢
          exact validLeafID_updateType e.2.2 _ c _ hc hv
        · simp only [hf, if_false] at hv ⊢
          exact hv
      · simp only [hfo, if_false]
        unfold validLeafIDList
        by_cases hf : f ≤ 1 + maxFieldID e.2.2
        · simp only [hf, if_true] at hv ⊢
          exact hv
        · simp only [hf, if_false] at hv ⊢
          exact validLeafIDList_updateTypeList es _ c _ hc hv

theorem leafTypeAt_updateType_or : ∀ (t : FTy) (fother : Nat) (c : FTy) (f : Nat),
    c.isGround = true → validLeafID t f = true →
    leafTypeAt (updateType t fother c) f = leafTypeAt t f ∨
    leafTypeAt (updateType t fother c) f = c
  | .bundle elems, fother, c, f, hc, hv => by
      unfold validLeafID at hv
      by_cases h0 : f = 0
      · simp [h0] at hv
      · simp only [h0, if_false] at hv
        unfold updateType leafTypeAt
        simp only [h0, if_false]
        exact leafTypeAtList_updateTypeList_or elems fother c f hc hv
  | .vector elem len, fother, c, f, hc, hv => by
      unfold validLeafID at hv
      by_cases h0 : f = 0
      · simp [h0] at hv
      · simp only [h0, if_false] at hv
        unfold updateType leafTypeAt
        simp only [h0, if_false]
        rw [maxFieldID_updateType elem _ c hc]
        simp only [Bool.and_eq_true, decide_eq_true_eq] at hv
        exact leafTypeAt_updateType_or elem _ c _ hc hv.2
  | .uint w, fother, c, f, hc, hv => by
      cases c <;> simp_all [updateType, leafTypeAt, FTy.isGround]
  | .sint w, fother, c, f, hc, hv => by
      cases c <;> simp_all [updateType, leafTypeAt, FTy.isGround]
  | .clock, fother, c, f, hc, hv => by
      cases c <;> simp_all [updateType, leafTypeAt, FTy.isGround]
  | .asyncReset, fother, c, f, hc, hv => by
      cases c <;> simp_all [updateType, leafTypeAt, FTy.isGround]
  | .reset, fother, c, f, hc, hv => by
      cases c <;> simp_all [updateType, leafTypeAt, FTy.isGround]
  | .analog, fother, c, f, hc, hv => by
      cases c <;> simp_all [updateType, leafTypeAt, FTy.isGround]

theorem leafTypeAtList_updateTypeList_or : ∀ (elems : List (String × Bool × FTy))
    (fother : Nat) (c : FTy) (f : Nat), c.isGround = true → validLeafIDList elems f = true →
    leafTypeAtList (updateTypeList elems fother c) f = leafTypeAtList elems f ∨
    leafTypeAtList (updateTypeList elems fother c) f = c
  | [], fother, c, f, hc, hv => by simp [validLeafIDList] at hv
  | e :: es, fother, c, f, hc, hv => by
      unfold validLeafIDList at hv
      unfold updateTypeList
      by_cases hfo : fother ≤ 1 + maxFieldID e.2.2
      · simp only [hfo, if_true]
        unfold leafTypeAtList
        rw [maxFieldID_updateType e.2.2 _ c hc]
        by_cases hf : f ≤ 1 + maxFieldID e.2.2
        · simp only [hf, if_true] at hv ⊢
          exact leafTypeAt_updateType_or e.2.2 _ c _ hc hv
        · simp only [hf, if_false] at hv ⊢
          exact Or.inl (by trivial)
      · simp only [hfo, if_false]
        unfold leafTypeAtList
        by_cases hf : f ≤ 1 + maxFieldID e.2.2
        · simp only [hf, if_true] at hv ⊢
          exact Or.inl (by trivial)
        · simp only [hf, if_false] at hv ⊢
          exact leafTypeAtList_updateTypeList_or es _ c _ hc hv

end

/-! ## Reset tracing (`InferResetsPass::traceResets`) -/

/-- Bundle element lookup by name, returning the element's index as well
    (`getElementIndex`). -/
def bundleFind : List (String × Bool × FTy) → String → Option (Nat × (String × Bool × FTy))
  | [], _ => none
  | e :: es, nm =>
      if e.1 = nm then some (0, e)
      else (bundleFind es nm).map (fun p => (p.1 + 1, p.2))

theorem bundleFind_mem : ∀ (elems : List (String × Bool × FTy)) (nm : String) (i : Nat)
    (e : String × Bool × FTy), bundleFind elems nm = some (i, e) → e ∈ elems
  | [], nm, i, e => by simp [bundleFind]
  | f :: fs, nm, i, e => by
      unfold bundleFind
      by_cases h : f.1 = nm
      · simp only [h, if_true, Option.some.injEq, Prod.mk.injEq]
        rintro ⟨-, rfl⟩
        simp
      · simp only [h, if_false, Option.map_eq_some']
        rintro ⟨⟨i', e'⟩, hfind, he⟩
        simp only [Prod.mk.injEq] at he
        rcases he with ⟨-, rfl⟩
        exact List.mem_cons_of_mem f (bundleFind_mem fs nm i' e' hfind)

mutual

/-- `InferResetsPass::traceResets(dstType, dst, dstID, srcType, src, srcID,
    loc)`: recurse structurally over the connected types — bundle fields are
    paired by name (a flipped destination field swaps direction), vectors
    collapse onto element 0, and a ground connection records a drive iff
    either side has abstract reset type.  Returns the `ResetMap::add` calls
    issued, in order. -/
def traceTypes : FTy → Nat → Nat → FTy → Nat → Nat → Nat → List AddOp
  | .bundle dstElems, dst, dstID, srcType, src, srcID, loc =>
      (match srcType with
       | .bundle srcElems => traceTypesBundle dstElems (dstID + 1) dst srcElems src srcID loc
       | _ => [])
  | .vector dstEl dstLen, dst, dstID, srcType, src, srcID, loc =>
      (match srcType with
       | .vector srcEl srcLen => traceTypes dstEl dst (dstID + 1) srcEl src (srcID + 1) loc
       | _ => [])
  | dstType, dst, dstID, srcType, src, srcID, loc =>
      if dstType = .reset ∨ srcType = .reset then
        [⟨(dst, dstID), dstType, (src, srcID), srcType, loc⟩]
      else []
termination_by dstType _ _ srcType _ _ _ => sizeOf dstType + sizeOf srcType
decreasing_by
  all_goals simp_wf
  all_goals omega

/-- The bundle loop of `traceResets`: walk the destination elements with a
    running base field id, pairing each with the equally named source
    element (if any). -/
def traceTypesBundle : List (String × Bool × FTy) → Nat → Nat →
    List (String × Bool × FTy) → Nat → Nat → Nat → List AddOp
  | [], _, _, _, _, _, _ => []
  | e :: rest, dstBase, dst, srcElems, src, srcID, loc =>
      (match hfind : bundleFind srcElems e.1 with
       | some si =>
           if e.2.1 then
             traceTypes si.2.2.2 src (srcID + bundleFieldID srcElems si.1) e.2.2 dst dstBase loc
           else
             traceTypes e.2.2 dst dstBase si.2.2.2 src (srcID + bundleFieldID srcElems si.1) loc
       | none => []) ++
      traceTypesBundle rest (dstBase + 1 + maxFieldID e.2.2) dst srcElems src srcID loc
termination_by l _ _ srcElems _ _ _ => sizeOf l + sizeOf srcElems
decreasing_by
  all_goals simp_wf
  all_goals
    (have h1 : si.2 ∈ srcElems := bundleFind_mem srcElems e.1 si.1 si.2 (by rw [hfind])
     have h2 := List.sizeOf_lt_of_mem h1
     rcases si with ⟨i, nm, fl, ty⟩
     rcases e with ⟨enm, efl, ety⟩
     simp at h2 ⊢
     omega)

end

/-! ## Phase I as a whole (trace, infer, update) -/

/-- A root value of the circuit: its id, what defines it, its declared
    type. -/
structure CValue where
  id : Nat
  defop : DefOp
  ty : FTy

/-- A circuit for Phase I: root values and the connects between them.
    (Connects reaching through subfield/subindex/subaccess projections and
    instance-port pairings feed the same `ResetMap::add` calls with the
    projection's accumulated field id; the model's connects relate whole
    values.) -/
structure Circuit where
  values : List CValue
  connects : List (Nat × Nat × Nat)

/-- The declared type of a value. -/
def Circuit.tyOf (c : Circuit) (v : Nat) : FTy :=
  match c.values.find? (fun x => x.id == v) with
  | some x => x.ty
  | none => .uint 0

/-- What defines a value. -/
def Circuit.defopOf (c : Circuit) (v : Nat) : DefOp :=
  match c.values.find? (fun x => x.id == v) with
  | some x => x.defop
  | none => .other

/-- `traceResets(CircuitOp)`: all drives recorded while walking the
    connects. -/
def Circuit.trace (c : Circuit) : List AddOp :=
  (c.connects.map (fun con =>
    traceTypes (c.tyOf con.1) con.1 0 (c.tyOf con.2.1) con.2.1 0 con.2.2)).flatten

/-- The reset map after tracing. -/
def Circuit.resetMapOf (c : Circuit) : ResetMap := runAdds c.trace

/-- The nodes of net `n` as inference sees them (recorded type plus the
    defining op of the node's value). -/
def netRNodes (c : Circuit) (s : ResetMap) (n : Nat) : List RNode :=
  (s.netNodes n).map (fun x => ⟨s.nodeType x, c.defopOf x.1⟩)

/-- `InferResetsPass::inferResets`: infer each net in order; any failure
    (including the C10 crash) aborts. -/
def inferAll (c : Circuit) (s : ResetMap) : List Nat → (Nat → ResetKind) →
    Option (Nat → ResetKind)
  | [], k => some k
  | n :: ns, k =>
      match inferReset (netRNodes c s n) with
      | .ok kind => inferAll c s ns (Function.update k n kind)
      | _ => none

/-- The concrete type chosen for an inferred net (`updateReset`:
    `AsyncResetType` for async, `uint<1>` otherwise). -/
def concreteTy : ResetKind → FTy
  | .async => .asyncReset
  | _ => .uint 1

theorem concreteTy_ground (k : ResetKind) : (concreteTy k).isGround = true := by
  cases k <;> rfl

theorem concreteTy_ne_reset (k : ResetKind) : concreteTy k ≠ .reset := by
  cases k <;> simp [concreteTy]

/-- Values that `updateReset` rewrites directly: block arguments and
    results of wire/reg/regreset/instance/invalid-value ops.  (Results of
    other ops are left to the `InferTypeOpInterface` worklist, which
    re-types the results of type-inferring user ops — an external
    interface.) -/
def isRootDef : DefOp → Bool
  | .blockArg => true
  | .wire => true
  | .reg => true
  | .regReset => true
  | .inst => true
  | .invalidValue => true
  | _ => false

/-- The loop body of `updateReset`: if the node's value is a root, rewrite
    its type at the node's field to the net's concrete type. -/
def updStep (c : Circuit) (kind : ResetKind) (ts : Nat → FTy) (x : FieldRef) : Nat → FTy :=
  if isRootDef (c.defopOf x.1) then
    Function.update ts x.1 (updateType (ts x.1) x.2 (concreteTy kind))
  else ts

/-- `updateReset` on one net: rewrite the traced field of every root node's
    value to the net's concrete type (`updateType`). -/
def updateNet (c : Circuit) (s : ResetMap) (kind : ResetKind) (n : Nat)
    (types : Nat → FTy) : Nat → FTy :=
  (s.netNodes n).foldl (updStep c kind) types

/-- `updateResets`: update every net. -/
def updateAll (c : Circuit) (s : ResetMap) (kinds : Nat → ResetKind)
    (nets : List Nat) (types : Nat → FTy) : Nat → FTy :=
  nets.foldl (fun ts n => updateNet c s (kinds n) n ts) types

/-- Phase I of the pass: trace the resets, infer every net, and update the
    value types; `none` when inference does not complete successfully. -/
def phaseI (c : Circuit) : Option (Nat → FTy) :=
  match inferAll c c.resetMapOf c.resetMapOf.live (fun _ => .uninferred) with
  | some kinds =>
      some (updateAll c c.resetMapOf kinds c.resetMapOf.live c.tyOf)
  | none => none

theorem updStep_valid (c : Circuit) (k : ResetKind) (ts : Nat → FTy) (x : FieldRef)
    (v0 f0 : Nat) (h : validLeafID (ts v0) f0 = true) :
    validLeafID ((updStep c k ts x) v0) f0 = true := by
  unfold updStep
  split
  · by_cases hv : v0 = x.1
    · subst hv
      rw [Function.update_same]
      exact validLeafID_updateType _ _ _ _ (concreteTy_ground k) h
    · rw [Function.update_noteq hv]
      exact h
  · exact h

theorem updStep_ne (c : Circuit) (k : ResetKind) (ts : Nat → FTy) (x : FieldRef)
    (v0 f0 : Nat) (h : validLeafID (ts v0) f0 = true)
    (hne : leafTypeAt (ts v0) f0 ≠ .reset) :
    leafTypeAt ((updStep c k ts x) v0) f0 ≠ .reset := by
  unfold updStep
  split
  · by_cases hv : v0 = x.1
    · subst hv
      rw [Function.update_same]
      rcases leafTypeAt_updateType_or (ts x.1) x.2 (concreteTy k) f0
          (concreteTy_ground k) h with he | he
      · rw [he]; exact hne
      · rw [he]; exact concreteTy_ne_reset k
    · rw [Function.update_noteq hv]
      exact hne
  · exact hne

theorem updFold_pres (c : Circuit) (k : ResetKind) :
    ∀ (l : List FieldRef) (ts : Nat → FTy) (v0 f0 : Nat),
    validLeafID (ts v0) f0 = true →
    validLeafID ((l.foldl (updStep c k) ts) v0) f0 = true ∧
    (leafTypeAt (ts v0) f0 ≠ .reset →
      leafTypeAt ((l.foldl (updStep c k) ts) v0) f0 ≠ .reset) := by
  intro l
  induction l with
  | nil => exact fun ts v0 f0 h => ⟨h, fun hne => hne⟩
  | cons y rest ih =>
      intro ts v0 f0 h
      rw [List.foldl_cons]
      obtain ⟨ha, hb⟩ := ih (updStep c k ts y) v0 f0 (updStep_valid c k ts y v0 f0 h)
      exact ⟨ha, fun hne => hb (updStep_ne c k ts y v0 f0 h hne)⟩

theorem updFold_establish (c : Circuit) (k : ResetKind) :
    ∀ (l : List FieldRef) (ts : Nat → FTy),
    (∀ x ∈ l, validLeafID (ts x.1) x.2 = true) →
    ∀ x ∈ l, isRootDef (c.defopOf x.1) = true →
    leafTypeAt ((l.foldl (updStep c k) ts) x.1) x.2 ≠ .reset := by
  intro l
  induction l with
  | nil => intro ts _ x hx; exact absurd hx (List.not_mem_nil x)
  | cons y rest ih =>
      intro ts hval x hx hroot
      rw [List.foldl_cons]
      rcases List.mem_cons.mp hx with rfl | hx
      · -- x is processed now; later steps preserve the established fact
        have hvy := hval x (by simp)
        have hstep : leafTypeAt ((updStep c k ts x) x.1) x.2 = concreteTy k := by
          unfold updStep
          rw [if_pos hroot, Function.update_same]
          exact leafTypeAt_updateType _ _ _ hvy (concreteTy_ground k)
        have hvy' : validLeafID ((updStep c k ts x) x.1) x.2 = true :=
          updStep_valid c k ts x x.1 x.2 hvy
        have := (updFold_pres c k rest (updStep c k ts x) x.1 x.2 hvy').2
        apply this
        rw [hstep]
        exact concreteTy_ne_reset k
      · exact ih (updStep c k ts y)
          (fun z hz => updStep_valid c k ts y z.1 z.2 (hval z (by simp [hz])))
          x hx hroot

theorem updateAll_pres (c : Circuit) (s : ResetMap) (kinds : Nat → ResetKind) :
    ∀ (nets : List Nat) (ts : Nat → FTy) (v0 f0 : Nat),
    validLeafID (ts v0) f0 = true →
    validLeafID ((updateAll c s kinds nets ts) v0) f0 = true ∧
    (leafTypeAt (ts v0) f0 ≠ .reset →
      leafTypeAt ((updateAll c s kinds nets ts) v0) f0 ≠ .reset) := by
  intro nets
  induction nets with
  | nil => exact fun ts v0 f0 h => ⟨h, fun hne => hne⟩
  | cons n rest ih =>
      intro ts v0 f0 h
      unfold updateAll
      rw [List.foldl_cons]
      have hstep := updFold_pres c (kinds n) (s.netNodes n) ts v0 f0 h
      obtain ⟨ha, hb⟩ := ih (updateNet c s (kinds n) n ts) v0 f0 (by
        unfold updateNet
        exact hstep.1)
      refine ⟨ha, fun hne => hb ?_⟩
      unfold updateNet
      exact hstep.2 hne

theorem updateAll_establish (c : Circuit) (s : ResetMap) (kinds : Nat → ResetKind) :
    ∀ (nets : List Nat) (ts : Nat → FTy),
    (∀ n ∈ nets, ∀ x ∈ s.netNodes n, validLeafID (ts x.1) x.2 = true) →
    ∀ n ∈ nets, ∀ x ∈ s.netNodes n, isRootDef (c.defopOf x.1) = true →
    leafTypeAt ((updateAll c s kinds nets ts) x.1) x.2 ≠ .reset := by
  intro nets
  induction nets with
  | nil => intro ts _ n hn; exact absurd hn (List.not_mem_nil n)
  | cons m rest ih =>
      intro ts hval n hn x hx hroot
      unfold updateAll
      rw [List.foldl_cons]
      rcases List.mem_cons.mp hn with rfl | hn
      · -- net n is updated now; the remaining nets preserve the fact
        have hest : leafTypeAt ((updateNet c s (kinds n) n ts) x.1) x.2 ≠ .reset := by
          unfold updateNet
          exact updFold_establish c (kinds n) (s.netNodes n) ts
            (fun z hz => hval n (by simp) z hz) x hx hroot
        have hv' : validLeafID ((updateNet c s (kinds n) n ts) x.1) x.2 = true := by
          unfold updateNet
          exact (updFold_pres c (kinds n) (s.netNodes n) ts x.1 x.2
            (hval n (by simp) x hx)).1
        exact (updateAll_pres c s kinds rest (updateNet c s (kinds n) n ts) x.1 x.2 hv').2 hest
      · exact ih (updateNet c s (kinds m) m ts)
          (fun n' hn' z hz => by
            unfold updateNet
            exact (updFold_pres c (kinds m) (s.netNodes m) ts z.1 z.2
              (hval n' (by simp [hn']) z hz)).1)
          n hn x hx hroot

/-- A circuit with an unconnected abstract-reset wire (value 0) and a
    traced net joining a reset wire (value 1) to a `uint<1>` wire
    (value 2). -/
def c2ex : Circuit :=
  { values := [⟨0, .wire, .reset⟩, ⟨1, .wire, .reset⟩, ⟨2, .wire, .uint 1⟩]
    connects := [(1, 2, 0)] }

theorem c2ex_trace : c2ex.trace = [⟨(1, 0), FTy.reset, (2, 0), FTy.uint 1, 0⟩] := by
  simp [Circuit.trace, c2ex, Circuit.tyOf, traceTypes, List.find?]

theorem c2ex_resetMap :
    c2ex.resetMapOf = runAdds [⟨(1, 0), FTy.reset, (2, 0), FTy.uint 1, 0⟩] := by
  rw [Circuit.resetMapOf, c2ex_trace]

theorem c2ex_phaseI :
    phaseI c2ex =
      (match inferAll c2ex (runAdds [⟨(1, 0), FTy.reset, (2, 0), FTy.uint 1, 0⟩])
          (runAdds [⟨(1, 0), FTy.reset, (2, 0), FTy.uint 1, 0⟩]).live
          (fun _ => .uninferred) with
      | some kinds =>
          some (updateAll c2ex (runAdds [⟨(1, 0), FTy.reset, (2, 0), FTy.uint 1, 0⟩]) kinds
            (runAdds [⟨(1, 0), FTy.reset, (2, 0), FTy.uint 1, 0⟩]).live c2ex.tyOf)
      | none => none) := by
  rw [phaseI, c2ex_resetMap]

/-- C2 (counterexample). Phase I completes successfully on `c2ex` (the one
    traced net infers to sync and value 1 is retyped `uint<1>`), yet value
    0 — an abstract-reset wire that is never an operand of any connect —
    still has the abstract reset type afterwards, contradicting the claim
    that no value anywhere keeps it. -/
theorem claim_C2_counterexample :
    (phaseI c2ex).isSome = true ∧
    (phaseI c2ex).map (fun f => f 1) = some (.uint 1) ∧
    (∀ con ∈ c2ex.connects, con.1 ≠ 0 ∧ con.2.1 ≠ 0) ∧
    c2ex.tyOf 0 = .reset ∧
    (phaseI c2ex).map (fun f => f 0) = some .reset := by
  rw [c2ex_phaseI]
  decide

/-- C2 (amended). After a successful Phase I, no value that appears as a
    *root node* of a traced reset net (block argument, or wire / reg /
    regreset / instance / invalid-value result) retains the abstract reset
    type at the traced field; values never traced (and non-root values,
    which are re-typed by the external type-inference worklist) are outside
    the update loop and may keep it. -/
theorem claim_C2_amended (c : Circuit) (f : Nat → FTy)
    (hsucc : phaseI c = some f)
    (hvalid : ∀ n ∈ c.resetMapOf.live, ∀ x ∈ c.resetMapOf.netNodes n,
      validLeafID (c.tyOf x.1) x.2 = true) :
    ∀ n ∈ c.resetMapOf.live, ∀ x ∈ c.resetMapOf.netNodes n,
      isRootDef (c.defopOf x.1) = true →
      leafTypeAt (f x.1) x.2 ≠ .reset := by
  unfold phaseI at hsucc
  rcases hk : inferAll c c.resetMapOf c.resetMapOf.live (fun _ => .uninferred) with _ | kinds
  · rw [hk] at hsucc
    exact absurd hsucc (by simp)
  · rw [hk] at hsucc
    simp only [Option.some.injEq] at hsucc
    subst hsucc
    exact updateAll_establish c c.resetMapOf kinds c.resetMapOf.live c.tyOf hvalid

/-- Witness for the amended C2 on `c2ex`: value 1 at field 0 is a root node
    of the traced net and ends up non-abstract. -/
theorem claim_C2_amended_witness :
    ∃ f, phaseI c2ex = some f ∧ leafTypeAt (f 1) 0 ≠ FTy.reset := by
  rcases hp : phaseI c2ex with _ | f
  · have hs : (phaseI c2ex).isSome = true := by rw [c2ex_phaseI]; decide
    rw [hp] at hs
    exact absurd hs (by simp)
  · refine ⟨f, rfl, ?_⟩
    have hlive : (0 : Nat) ∈ c2ex.resetMapOf.live := by rw [c2ex_resetMap]; decide
    have hnode : ((1 : Nat), (0 : Nat)) ∈ c2ex.resetMapOf.netNodes 0 := by
      rw [c2ex_resetMap]; decide
    refine claim_C2_amended c2ex f hp ?_ 0 hlive ((1 : Nat), (0 : Nat)) hnode (by decide)
    rw [c2ex_resetMap]
    decide

/-! ## Annotation collection and domain construction (Phase II)

Models `InferResetsPass::collectAnnos` (lines 1037-1158) and
`InferResetsPass::buildDomains` (lines 1169-1267). Modules are `Nat` ids;
reset values (ports or wires) are `Nat` ids; the `annotatedResets` map
becomes a function `Nat → Option (Option Nat)` where `none` means no entry,
`some none` an entry with null reset (explicit ignore), and `some (some v)`
a designated reset `v`. The instance hierarchy is the tree of instance
paths that the recursive `buildDomains` walk unfolds. -/

/-- Modelled from the spec: a reset annotation relevant to `collectAnnos`,
    i.e. its class (FullAsyncReset vs IgnoreFullAsyncReset) paired with its
    target (the module itself, a port value, or a wire/node value).
    Annotations of these classes on other operations (a separate error path
    of `collectAnnos`) are not modelled. -/
inductive Anno where
  | ignoreOnModule : Anno
  | resetOnModule : Anno
  | resetOnPort : Nat → Anno
  | ignoreOnPort : Nat → Anno
  | resetOnWire : Nat → Anno
  | ignoreOnWire : Nat → Anno
deriving DecidableEq

/-- Per-module annotation collection, `InferResetsPass::collectAnnos`
    (lines 1037-1158). Returns `none` on failure; `some none` when the
    module gets no `annotatedResets` entry (no annotation at all, line
    1124); `some (some reset)` when an entry is recorded (line 1156), with
    `reset = none` exactly in the explicit-ignore case (null `Value`).
    Failure cases in source order: a FullAsyncReset annotation on the
    module itself (line 1053), an Ignore annotation on a port (line 1076)
    or on a wire/node (line 1109), or more than one entry accumulated in
    the `conflictingAnnos` set-vector (line 1131). The wire pass overwrites
    any reset found by the port pass (lines 1066-1117). -/
def collectAnnos (annos : List Anno) : Option (Option (Option Nat)) :=
  if annos.contains Anno.resetOnModule then none
  else if annos.any (fun a => match a with | .ignoreOnPort _ => true | _ => false) then
    none
  else if annos.any (fun a => match a with | .ignoreOnWire _ => true | _ => false) then
    none
  else
    let ignore := annos.contains Anno.ignoreOnModule
    let portReset := annos.foldl
      (fun r a => match a with | .resetOnPort v => some v | _ => r) (none : Option Nat)
    let reset := annos.foldl
      (fun r a => match a with | .resetOnWire v => some v | _ => r) portReset
    let conflicts := annos.foldl
      (fun l a => match a with
        | .ignoreOnModule => svInsert (none : Option Nat) l
        | .resetOnPort v => svInsert (some v) l
        | .resetOnWire v => svInsert (some v) l
        | _ => l) ([] : List (Option Nat))
    if !ignore && reset.isNone then some none
    else if 1 < conflicts.length then none
    else some (some reset)

/-- Reset domain, struct `ResetDomain` (lines 60-71): the domain-root flag,
    the domain reset (null = explicitly no reset), and the implementation
    fields filled in later by `determineImpl`. -/
structure ResetDomain where
  isTop : Bool := false
  reset : Option Nat := none
  existingValue : Option Nat := none
  existingPort : Option Nat := none
  newPortName : Option String := none
deriving DecidableEq

/-- Domain equality, `operator==` on `ResetDomain` (lines 73-75): only the
    `(isTop, reset)` pair takes part. -/
def domainEq (a b : ResetDomain) : Bool :=
  a.isTop == b.isTop && a.reset == b.reset

/-- Domain assembly at one module visit, lines 1241-1246 of `buildDomains`:
    the domain starts as the parent reset with `isTop = false`; if the
    module has an `annotatedResets` entry, `isTop` is set and the reset is
    overwritten with the entry value — for every entry, including an
    explicit ignore (null reset). -/
def mkDomain (parentReset : Option Nat) (entry : Option (Option Nat)) : ResetDomain :=
  match entry with
  | none => { reset := parentReset }
  | some r => { isTop := true, reset := r }

/-- Domain table `domains`: module id to its list of (domain, instance
    path) entries; absent modules map to `[]`. -/
def DomTable : Type := Nat → List (ResetDomain × List Nat)

/-- Conditional append of lines 1251-1255: push `(domain, instPath)` onto
    the module entry list iff the list is empty or no existing entry has an
    equal domain. -/
def addDomainEntry (tbl : DomTable) (m : Nat) (domain : ResetDomain)
    (instPath : List Nat) : DomTable :=
  let entries := tbl m
  if entries.isEmpty || entries.all (fun e => !domainEq e.1 domain) then
    Function.update tbl m (entries ++ [(domain, instPath)])
  else tbl

/-- Modelled from the spec: the instance hierarchy as the tree the
    recursive `buildDomains` walk unfolds — a node carries the module id,
    the instance id by which its parent instantiates it (ignored at the
    root), and the instantiated submodule subtrees. -/
inductive ITree where
  | node : Nat → Nat → List ITree → ITree

/-- Instance id by which the parent instantiates this node. -/
def ITree.instId : ITree → Nat
  | .node _ i _ => i

mutual

/-- Recursive `buildDomains` walk (lines 1232-1267): assemble the domain
    for this module, conditionally append it to the domain table, then
    visit each child instance with the extended path and this domain's
    reset as parent reset. -/
def buildD (ar : Nat → Option (Option Nat)) (t : ITree) (instPath : List Nat)
    (parentReset : Option Nat) (tbl : DomTable) : DomTable :=
  match t with
  | .node m _ children =>
    let domain := mkDomain parentReset (ar m)
    buildDList ar children instPath domain.reset
      (addDomainEntry tbl m domain instPath)

/-- Child-instance loop of the `buildDomains` walk (lines 1258-1266). -/
def buildDList (ar : Nat → Option (Option Nat)) (ts : List ITree)
    (instPath : List Nat) (reset : Option Nat) (tbl : DomTable) : DomTable :=
  match ts with
  | [] => tbl
  | t :: rest =>
    buildDList ar rest instPath reset
      (buildD ar t (instPath ++ [t.instId]) reset tbl)

end

mutual

/-- Module ids occurring in an instance tree. -/
def ITree.mods : ITree → List Nat
  | .node m _ children => m :: ITree.modsList children

/-- Module ids occurring in a list of instance trees. -/
def ITree.modsList : List ITree → List Nat
  | [] => []
  | t :: rest => ITree.mods t ++ ITree.modsList rest

end

/-- Top-level `buildDomains` (lines 1169-1178): walk from the main module
    with an empty instance path and a null parent reset into an empty
    domain table. -/
def buildDomains (ar : Nat → Option (Option Nat)) (root : ITree) : DomTable :=
  buildD ar root [] none (fun _ => [])

/-- Conflict check of lines 1181-1229: the pass fails iff some module in
    the table has more than one domain entry. -/
def domainsFailed (ar : Nat → Option (Option Nat)) (root : ITree) : Bool :=
  (ITree.mods root).any (fun m => 1 < (buildDomains ar root m).length)

theorem addDomainEntry_other (tbl : DomTable) (m : Nat) (d : ResetDomain)
    (path : List Nat) (x : Nat) (hx : x ≠ m) :
    addDomainEntry tbl m d path x = tbl x := by
  unfold addDomainEntry
  split
  · exact Function.update_noteq hx _ _
  · rfl

mutual

theorem buildD_not_mem (ar : Nat → Option (Option Nat)) (t : ITree)
    (instPath : List Nat) (p : Option Nat) (tbl : DomTable) (m : Nat)
    (hm : m ∉ ITree.mods t) : buildD ar t instPath p tbl m = tbl m := by
  match t with
  | .node mo i children =>
    rw [buildD]
    have hm1 : m ≠ mo ∧ m ∉ ITree.modsList children := by
      rw [ITree.mods] at hm
      simp only [List.mem_cons, not_or] at hm
      exact hm
    rw [buildDList_not_mem ar children _ _ _ m hm1.2]
    exact addDomainEntry_other tbl mo _ instPath m hm1.1

theorem buildDList_not_mem (ar : Nat → Option (Option Nat)) (ts : List ITree)
    (instPath : List Nat) (p : Option Nat) (tbl : DomTable) (m : Nat)
    (hm : m ∉ ITree.modsList ts) : buildDList ar ts instPath p tbl m = tbl m := by
  match ts with
  | [] => rfl
  | t :: rest =>
    rw [ITree.modsList] at hm
    simp only [List.mem_append, not_or] at hm
    calc buildDList ar (t :: rest) instPath p tbl m
        = buildDList ar rest instPath p
            (buildD ar t (instPath ++ [t.instId]) p tbl) m := rfl
      _ = buildD ar t (instPath ++ [t.instId]) p tbl m :=
            buildDList_not_mem ar rest _ _ _ m hm.2
      _ = tbl m := buildD_not_mem ar t _ _ _ m hm.1

end

theorem buildDomains_support (ar : Nat → Option (Option Nat)) (root : ITree)
    (m : Nat) (h : buildDomains ar root m ≠ []) : m ∈ ITree.mods root := by
  by_contra hm
  exact h (buildD_not_mem ar root [] none (fun _ => []) m hm)

/-- C6. `buildDomains` appends a `(domain, path)` pair at a module only
    when no existing entry has an equal domain (equality on the
    `(isTop, reset)` pair), leaving other modules untouched; the pass fails
    after the walk iff some module has more than one entry; hence on
    success every module present in the table has exactly one entry. -/
theorem claim_C6_domain_uniqueness (ar : Nat → Option (Option Nat)) (root : ITree) :
    (∀ (tbl : DomTable) (m : Nat) (d : ResetDomain) (path : List Nat),
      addDomainEntry tbl m d path m =
        (if (tbl m).all (fun e => !domainEq e.1 d) then tbl m ++ [(d, path)]
         else tbl m) ∧
      ∀ x, x ≠ m → addDomainEntry tbl m d path x = tbl x) ∧
    (domainsFailed ar root = true ↔ ∃ m, 1 < (buildDomains ar root m).length) ∧
    (domainsFailed ar root = false →
      ∀ m, buildDomains ar root m ≠ [] → (buildDomains ar root m).length = 1) := by
  refine ⟨?_, ?_, ?_⟩
  · intro tbl m d path
    constructor
    · unfold addDomainEntry
      split
      · rename_i h
        rw [Function.update_same]
        have h2 : (tbl m).isEmpty = true ∨
            ((tbl m).all fun e => !domainEq e.1 d) = true := by
          simpa using h
        rcases h2 with he | ha
        · have hnil : tbl m = [] := by simpa using he
          rw [hnil]
          simp
        · rw [if_pos ha]
      · rename_i h
        have ha : ¬ ((tbl m).all fun e => !domainEq e.1 d) = true := by
          intro ha
          exact h (by rw [ha, Bool.or_true])
        rw [if_neg ha]
    · exact fun x hx => addDomainEntry_other tbl m d path x hx
  · constructor
    · intro h
      rcases List.any_eq_true.mp h with ⟨m, _, hm⟩
      exact ⟨m, by simpa using hm⟩
    · rintro ⟨m, hm⟩
      apply List.any_eq_true.mpr
      refine ⟨m, ?_, by simpa using hm⟩
      apply buildDomains_support
      intro hnil
      rw [hnil] at hm
      exact absurd hm (by simp)
  · intro hok m hne
    have hmem := buildDomains_support ar root m hne
    have hle : ¬ 1 < (buildDomains ar root m).length := by
      intro hlt
      have : domainsFailed ar root = true :=
        List.any_eq_true.mpr ⟨m, hmem, by simpa using hlt⟩
      rw [hok] at this
      exact absurd this (by simp)
    have hpos : 0 < (buildDomains ar root m).length := List.length_pos.mpr hne
    omega

/-- C1 (counterexample). A module carrying only the Ignore annotation gets
    an `annotatedResets` entry with a null reset, and `buildDomains` then
    gives it a domain with `isTop = true` (and reset `none`) — `buildDomains`
    sets `isTop` for every `annotatedResets` entry, contradicting the
    claim that an explicit ignore leaves `isTop` false. -/
theorem claim_C1_counterexample :
    collectAnnos [Anno.ignoreOnModule] = some (some none) ∧
    (buildDomains (fun m => if m = 0 then some none else none)
        (.node 0 0 []) 0).map (fun e => (e.1.isTop, e.1.reset)) =
      [(true, none)] := by
  constructor
  · rfl
  · rfl

/-- C1 (amended). At every module visit of the `buildDomains` walk the
    assembled domain is `mkDomain parentReset (annotatedResets entry)`: its
    `isTop` is set iff the module has an entry (designation or explicit
    ignore alike), its reset is the entry value when an entry exists and
    the parent reset otherwise; the walk appends exactly this domain via
    `addDomainEntry` and passes its reset down to the children. -/
theorem claim_C1_amended (ar : Nat → Option (Option Nat)) (m i : Nat)
    (children : List ITree) (path : List Nat) (p : Option Nat) (tbl : DomTable) :
    (mkDomain p (ar m)).isTop = (ar m).isSome ∧
    (mkDomain p (ar m)).reset = (ar m).getD p ∧
    buildD ar (.node m i children) path p tbl =
      buildDList ar children path ((ar m).getD p)
        (addDomainEntry tbl m (mkDomain p (ar m)) path) := by
  refine ⟨?_, ?_, ?_⟩ <;>
    cases h : ar m <;>
      simp [mkDomain, buildD, h, Option.getD, Option.isSome]


/-! ## Implementation planning (determineImpl)

Models `InferResetsPass::determineImpl` (lines 1292-1355). Ports are
(name, type) pairs whose list position is the argument index; the domain
reset is its name (`getResetName`), type, and argument index when it is a
block argument. -/

/-- Module port: name and type; the position in the port list is the
    argument index. -/
structure Port where
  name : String
  ty : FTy
deriving DecidableEq

/-- Reset value as `determineImpl` sees it: name, type, and argument index
    when the value is a module port (block argument). -/
structure RVal where
  name : String
  ty : FTy
  argIdx : Option Nat
deriving DecidableEq

/-- Implementation fields of `ResetDomain` (lines 68-70) as filled in by
    `determineImpl`, with the existing value kept symbolically. -/
structure ImplPlan where
  existingValue : Option RVal := none
  existingPort : Option Nat := none
  newPortName : Option String := none
deriving DecidableEq

/-- Candidate name tried by the uniquification loop: the needed name, an
    underscore, and the decimal suffix (line 1341-1343). -/
def mkCand (base : String) (s : Nat) : String :=
  base ++ "_" ++ Nat.repr s

/-- The do-while loop of lines 1339-1344: try `base_0`, `base_1`, … until
    the candidate is not an existing port name. The source loop has no fuel;
    it is bounded here by the caller-supplied try count, and
    `uniquifyGo_not_mem` shows the bound `portNames.length + 1` used by
    `uniquify` is never exhausted, so the fuel-out branch is dead. -/
def uniquifyGo (portNames : List String) (base : String) : Nat → Nat → String
  | 0, s => mkCand base s
  | fuel + 1, s =>
    if mkCand base s ∈ portNames then uniquifyGo portNames base fuel (s + 1)
    else mkCand base s

/-- Uniquified port name: run the try loop from suffix 0 with
    `portNames.length + 1` tries. -/
def uniquify (portNames : List String) (base : String) : String :=
  uniquifyGo portNames base (portNames.length + 1) 0

/-- First port index with the given name, `llvm::find_if` over the
    enumerated ports (lines 1315-1318). -/
def findPortIdx : List Port → String → Option Nat
  | [], _ => none
  | p :: rest, nm =>
    if p.name = nm then some 0 else (findPortIdx rest nm).map (· + 1)

/-- Per-module implementation planning, `determineImpl` (lines 1292-1355):
    no reset — nothing to do; domain root — reuse the reset value itself
    (recording its port index when it is a block argument); otherwise reuse
    the first port carrying the needed name if its type matches, uniquify
    the name if that port's type is incompatible, or record the needed name
    itself if it is free. -/
def determineImpl (ports : List Port) (isTop : Bool) (reset : Option RVal) :
    ImplPlan :=
  match reset with
  | none => {}
  | some r =>
    if isTop then
      { existingValue := some r, existingPort := r.argIdx }
    else
      let portNames := ports.map Port.name
      match findPortIdx ports r.name with
      | some i =>
        let p := ports.getD i ⟨"", FTy.uint 0⟩
        if p.ty = r.ty then
          { existingValue := some ⟨p.name, p.ty, some i⟩, existingPort := some i }
        else
          { newPortName := some (uniquify portNames r.name) }
      | none => { newPortName := some r.name }

/-- Decimal decode step matching `Nat.digitChar`: shift the accumulator and
    add the digit value of the character. -/
def decStep (a : Nat) (c : Char) : Nat :=
  10 * a + (c.toNat - 48)

theorem digitChar_decode (d : Nat) (hd : d < 10) :
    (Nat.digitChar d).toNat - 48 = d := by
  interval_cases d <;> rfl

theorem toDigitsCore_decode (fuel : Nat) :
    ∀ (n : Nat) (ds : List Char), n < fuel →
      ∃ p, Nat.toDigitsCore 10 fuel n ds = p ++ ds ∧ p ≠ [] ∧
        ∀ a, List.foldl decStep a (p ++ ds) =
          List.foldl decStep (a * 10 ^ p.length + n) ds := by
  induction fuel with
  | zero => intro n ds hn; omega
  | succ f ih =>
    intro n ds hn
    by_cases hdiv : n / 10 = 0
    · have h10 : n < 10 := by omega
      refine ⟨[Nat.digitChar (n % 10)], ?_, by simp, ?_⟩
      · rw [Nat.toDigitsCore]
        simp [hdiv]
      · intro a
        have hmod : n % 10 = n := Nat.mod_eq_of_lt h10
        simp only [List.cons_append, List.nil_append, List.foldl_cons,
          List.length_cons, List.length_nil, pow_one, Nat.zero_add, decStep,
          digitChar_decode (n % 10) (Nat.mod_lt n (by norm_num))]
        congr 1
        omega
    · have hpos : 0 < n := by
        rcases Nat.eq_zero_or_pos n with rfl | h
        · exact absurd rfl hdiv
        · exact h
      have hlt : n / 10 < f := by
        have h1 : n / 10 < n := Nat.div_lt_self hpos (by norm_num)
        omega
      obtain ⟨q, hq1, hq2, hq3⟩ := ih (n / 10) (Nat.digitChar (n % 10) :: ds) hlt
      refine ⟨q ++ [Nat.digitChar (n % 10)], ?_, by simp, ?_⟩
      · rw [Nat.toDigitsCore]
        simp only [hdiv, if_false]
        rw [hq1]
        simp
      · intro a
        have hstep : List.foldl decStep a ((q ++ [Nat.digitChar (n % 10)]) ++ ds) =
            List.foldl decStep a (q ++ (Nat.digitChar (n % 10) :: ds)) := by
          simp
        rw [hstep, hq3 a]
        simp only [List.foldl_cons]
        congr 1
        simp only [decStep, digitChar_decode (n % 10) (Nat.mod_lt n (by norm_num)),
          List.length_append, List.length_cons, List.length_nil]
        rw [pow_succ, ← Nat.mul_assoc]
        omega

theorem toDigits_decode (n : Nat) :
    List.foldl decStep 0 (Nat.toDigits 10 n) = n := by
  obtain ⟨p, h1, _, h3⟩ := toDigitsCore_decode (n + 1) n [] (Nat.lt_succ_self n)
  have := h3 0
  rw [Nat.toDigits, h1]
  simpa using this

theorem natRepr_inj (m n : Nat) (h : Nat.repr m = Nat.repr n) : m = n := by
  have hd : Nat.toDigits 10 m = Nat.toDigits 10 n := congrArg String.data h
  rw [← toDigits_decode m, ← toDigits_decode n, hd]

theorem mkCand_inj (base : String) : Function.Injective (mkCand base) := by
  intro a b h
  apply natRepr_inj
  apply String.ext
  have hd := congrArg String.data h
  simp only [mkCand, String.data_append, List.append_assoc] at hd
  have hd2 := List.append_cancel_left hd
  exact List.append_cancel_left hd2

theorem uniquifyGo_not_mem (portNames : List String) (base : String) :
    ∀ (fuel s : Nat), (∃ k < fuel, mkCand base (s + k) ∉ portNames) →
      uniquifyGo portNames base fuel s ∉ portNames := by
  intro fuel
  induction fuel with
  | zero =>
    rintro s ⟨k, hk, _⟩
    omega
  | succ f ih =>
    rintro s ⟨k, hk, hfree⟩
    rw [uniquifyGo]
    split
    · rename_i hmem
      apply ih
      have hk0 : k ≠ 0 := by
        rintro rfl
        rw [Nat.add_zero] at hfree
        exact hfree hmem
      refine ⟨k - 1, by omega, ?_⟩
      have harith : s + 1 + (k - 1) = s + k := by omega
      rw [harith]
      exact hfree
    · rename_i hmem
      exact hmem

theorem exists_free_cand (portNames : List String) (base : String) :
    ∃ k < portNames.length + 1, mkCand base k ∉ portNames := by
  by_contra hcon
  push_neg at hcon
  have hsub : (Finset.range (portNames.length + 1)).image (mkCand base) ⊆
      portNames.toFinset := by
    intro x hx
    simp only [Finset.mem_image, Finset.mem_range] at hx
    obtain ⟨k, hk, rfl⟩ := hx
    exact List.mem_toFinset.mpr (hcon k hk)
  have hcard := Finset.card_le_card hsub
  rw [Finset.card_image_of_injective _ (mkCand_inj base), Finset.card_range]
    at hcard
  have hle := portNames.toFinset_card_le
  omega

theorem uniquify_not_mem (portNames : List String) (base : String) :
    uniquify portNames base ∉ portNames := by
  obtain ⟨k, hk, hfree⟩ := exists_free_cand portNames base
  refine uniquifyGo_not_mem portNames base (portNames.length + 1) 0 ⟨k, hk, ?_⟩
  rw [Nat.zero_add]
  exact hfree

theorem findPortIdx_none (ports : List Port) (nm : String)
    (h : findPortIdx ports nm = none) : ∀ p ∈ ports, p.name ≠ nm := by
  induction ports with
  | nil =>
    intro p hp
    cases hp
  | cons q rest ih =>
    rw [findPortIdx] at h
    by_cases hq : q.name = nm
    · rw [if_pos hq] at h
      cases h
    · rw [if_neg hq] at h
      intro p hp
      rcases List.mem_cons.mp hp with rfl | hp2
      · exact hq
      · exact ih (Option.map_eq_none'.mp h) p hp2

theorem findPortIdx_some (ports : List Port) (nm : String) :
    ∀ i, findPortIdx ports nm = some i →
      i < ports.length ∧ (ports.getD i ⟨"", FTy.uint 0⟩).name = nm := by
  induction ports with
  | nil =>
    intro i h
    cases h
  | cons q rest ih =>
    intro i h
    rw [findPortIdx] at h
    by_cases hq : q.name = nm
    · rw [if_pos hq] at h
      injection h with h
      subst h
      exact ⟨by simp only [List.length_cons]; omega, hq⟩
    · rw [if_neg hq] at h
      rcases hfi : findPortIdx rest nm with _ | j
      · rw [hfi] at h
        cases h
      · rw [hfi] at h
        dsimp only [Option.map] at h
        injection h with h
        subst h
        obtain ⟨hlt, hname⟩ := ih j hfi
        refine ⟨by simp only [List.length_cons]; omega, ?_⟩
        rw [List.getD_cons_succ]
        exact hname

theorem getD_mem_of_lt (ports : List Port) (i : Nat) (h : i < ports.length) :
    ports.getD i ⟨"", FTy.uint 0⟩ ∈ ports := by
  rw [List.getD_eq_getElem?_getD, List.getElem?_eq_getElem h]
  exact List.getElem_mem h

/-- C9. Whenever `determineImpl` records a `newPortName` for a module with
    no duplicate port names, the module is not the domain root, no port of
    the module carries the needed reset name together with the needed type,
    and the recorded name — the needed name itself when free, or the
    `_0`, `_1`, … suffixed uniquification when the name is taken with an
    incompatible type — differs from every existing port name. -/
theorem claim_C9_new_port_name_fresh (ports : List Port) (isTop : Bool)
    (reset : Option RVal) (nm : String)
    (hnodup : (ports.map Port.name).Nodup)
    (h : (determineImpl ports isTop reset).newPortName = some nm) :
    isTop = false ∧
    (∃ r, reset = some r ∧ ∀ p ∈ ports, ¬(p.name = r.name ∧ p.ty = r.ty)) ∧
    nm ∉ ports.map Port.name := by
  match reset with
  | none =>
    rw [determineImpl] at h
    cases h
  | some r =>
    rw [determineImpl] at h
    cases isTop with
    | true =>
      rw [if_pos rfl] at h
      cases h
    | false =>
      rw [if_neg (by simp)] at h
      dsimp only at h
      rcases hfi : findPortIdx ports r.name with _ | i
      · rw [hfi] at h
        dsimp only at h
        simp only [Option.some.injEq] at h
        subst h
        have hnone := findPortIdx_none ports r.name hfi
        refine ⟨rfl, ⟨r, rfl, ?_⟩, ?_⟩
        · intro p hp hc
          exact hnone p hp hc.1
        · intro hmem
          obtain ⟨p, hp, hpname⟩ := List.mem_map.mp hmem
          exact hnone p hp hpname
      · rw [hfi] at h
        dsimp only at h
        obtain ⟨hlt, hname⟩ := findPortIdx_some ports r.name i hfi
        by_cases hty : (ports.getD i ⟨"", FTy.uint 0⟩).ty = r.ty
        · rw [if_pos hty] at h
          cases h
        · rw [if_neg hty] at h
          simp only [Option.some.injEq] at h
          subst h
          refine ⟨rfl, ⟨r, rfl, ?_⟩, uniquify_not_mem _ _⟩
          intro p hp hc
          have hpq : p = ports.getD i ⟨"", FTy.uint 0⟩ :=
            List.inj_on_of_nodup_map hnodup hp (getD_mem_of_lt ports i hlt)
              (by rw [hc.1, hname])
          rw [hpq] at hc
          exact hty hc.2

/-- Closed instance of claim C9: ports `[rst : uint<1>]`, a non-root
    domain whose reset is named `rst` of async type; planning records the
    uniquified name `rst_0`, which is none of the port names. -/
theorem claim_C9_new_port_name_fresh_witness :
    false = false ∧
    (∃ r, some (⟨"rst", FTy.asyncReset, none⟩ : RVal) = some r ∧
      ∀ p ∈ [(⟨"rst", FTy.uint 1⟩ : Port)], ¬(p.name = r.name ∧ p.ty = r.ty)) ∧
    "rst_0" ∉ [(⟨"rst", FTy.uint 1⟩ : Port)].map Port.name :=
  claim_C9_new_port_name_fresh [⟨"rst", FTy.uint 1⟩] false
    (some ⟨"rst", FTy.asyncReset, none⟩) "rst_0" (by decide) (by decide)


/-! ## Async-reset materialization (implementAsyncReset)

Models `createZeroValue` (lines 100-154), `insertResetMux` (lines
161-211) and the per-operation handlers of
`InferResetsPass::implementAsyncReset` (lines 1375-1538). -/

/-- Modelled from the spec: SSA values the materialization code builds or
    reads, kept as expressions — existing values are `val id ty`, and the
    ops the pass creates (subfield/subindex/subaccess projections, muxes,
    primitive casts, constants, invalids, and the wires backing aggregate
    zero values) are the remaining constructors. -/
inductive Expr where
  | val : Nat → FTy → Expr
  | subfield : Expr → String → Expr
  | subindex : Expr → Nat → Expr
  | subaccess : Expr → Expr → Expr
  | mux : Expr → Expr → Expr → Expr
  | asClock : Expr → Expr
  | asAsyncReset : Expr → Expr
  | const : FTy → Nat → Expr
  | invalid : FTy → Expr
  | wire : FTy → Expr
deriving DecidableEq

/-- Modelled from the spec: result type of an expression per the FIRRTL
    op definitions (subfield projects the named bundle element, subindex
    and subaccess the vector element, mux takes its high operand's type,
    the casts produce clock and asyncreset). -/
def Expr.ty : Expr → FTy
  | .val _ t => t
  | .subfield e f =>
    match e.ty with
    | .bundle elems =>
      match bundleFind elems f with
      | some p => p.2.2.2
      | none => FTy.uint 0
    | _ => FTy.uint 0
  | .subindex e _ =>
    match e.ty with
    | .vector elem _ => elem
    | _ => FTy.uint 0
  | .subaccess e _ =>
    match e.ty with
    | .vector elem _ => elem
    | _ => FTy.uint 0
  | .mux _ a _ => a.ty
  | .asClock _ => FTy.clock
  | .asAsyncReset _ => FTy.asyncReset
  | .const t _ => t
  | .invalid t => t
  | .wire t => t

/-- Zero value of a type, `createZeroValue` (lines 100-154): clock and
    asyncreset cast a zero bit (the recursive `nullBit()` call on
    `uint<1>` is inlined to the constant it produces), uint/sint are zero
    constants, reset and analog are invalids, and aggregates are wires
    driven element-wise by zeros (the drives are `createZeroConnects`).
    The per-call value cache (sharing of identical zeros) is not
    modelled. -/
def createZeroValue : FTy → Expr
  | .uint w => .const (.uint w) 0
  | .sint w => .const (.sint w) 0
  | .clock => .asClock (.const (.uint 1) 0)
  | .asyncReset => .asAsyncReset (.const (.uint 1) 0)
  | .reset => .invalid .reset
  | .analog => .invalid .analog
  | .bundle elems => .wire (.bundle elems)
  | .vector elem n => .wire (.vector elem n)

mutual

/-- Connects emitted while building a zero value (lines 121-139): for a
    bundle, each field's own zero connects followed by a drive of the
    subfield; for a vector, the element zero's connects once, then a drive
    of every subindex. -/
def createZeroConnects : FTy → List (Expr × Expr)
  | .bundle elems => createZeroConnectsList (.wire (.bundle elems)) elems
  | .vector elem n =>
    createZeroConnects elem ++
      (List.range n).map
        (fun i => (Expr.subindex (.wire (.vector elem n)) i, createZeroValue elem))
  | _ => []

/-- Field loop of the bundle case of `createZeroValue` (lines 123-128). -/
def createZeroConnectsList (w : Expr) : List (String × Bool × FTy) → List (Expr × Expr)
  | [] => []
  | e :: rest =>
    (createZeroConnects e.2.2 ++ [(Expr.subfield w e.1, createZeroValue e.2.2)]) ++
      createZeroConnectsList w rest

end

/-- Modelled from the spec: the use list of a register (or of one of its
    projections), as `insertResetMux` walks it — a connect or partial
    connect whose destination is the walked value (carrying its source), a
    connect where the walked value is only the source, a
    subfield/subindex/subaccess op on it together with that op's own uses,
    or any other user (ignored by the TypeSwitch). -/
inductive UseTree where
  | connTo : Expr → UseTree
  | pconnTo : Expr → UseTree
  | connFrom : UseTree
  | subfield : String → List UseTree → UseTree
  | subindex : Nat → List UseTree → UseTree
  | subaccess : Expr → List UseTree → UseTree
  | otherUse : UseTree

mutual

/-- Mux insertion, `insertResetMux` (lines 161-211), on one use: a connect
    or partial connect driving the target gets its source wrapped in
    `mux(reset, resetValue, src)`; sub-ops recurse with the correspondingly
    projected reset value; everything else is untouched. The boolean is
    `resetValueUsed` (an unused projection op of the reset value is erased
    by the source, which concerns only those freshly created ops). -/
def insertResetMux (reset resetValue : Expr) : UseTree → UseTree × Bool
  | .connTo src => (.connTo (.mux reset resetValue src), true)
  | .pconnTo src => (.pconnTo (.mux reset resetValue src), true)
  | .connFrom => (.connFrom, false)
  | .subfield f uses =>
    let r := insertResetMuxList reset (.subfield resetValue f) uses
    (.subfield f r.1, r.2)
  | .subindex i uses =>
    let r := insertResetMuxList reset (.subindex resetValue i) uses
    (.subindex i r.1, r.2)
  | .subaccess i uses =>
    let r := insertResetMuxList reset (.subaccess resetValue i) uses
    (.subaccess i r.1, r.2)
  | .otherUse => (.otherUse, false)

/-- Use loop of `insertResetMux` (line 168). -/
def insertResetMuxList (reset resetValue : Expr) : List UseTree → List UseTree × Bool
  | [] => ([], false)
  | t :: rest =>
    let a := insertResetMux reset resetValue t
    let b := insertResetMuxList reset resetValue rest
    (a.1 :: b.1, a.2 || b.2)

end

mutual

/-- Modelled from the spec: every driver of the register, looked at
    through any chain of subfield/subindex/subaccess ops, has its source
    wrapped in a mux selecting between the correspondingly projected
    original reset value and the incoming data, guarded by the original
    reset signal. -/
def muxSpecTree (reset resetValue : Expr) : UseTree → UseTree
  | .connTo src => .connTo (.mux reset resetValue src)
  | .pconnTo src => .pconnTo (.mux reset resetValue src)
  | .connFrom => .connFrom
  | .subfield f uses => .subfield f (muxSpecList reset (.subfield resetValue f) uses)
  | .subindex i uses => .subindex i (muxSpecList reset (.subindex resetValue i) uses)
  | .subaccess i uses => .subaccess i (muxSpecList reset (.subaccess resetValue i) uses)
  | .otherUse => .otherUse

/-- Modelled from the spec: `muxSpecTree` over a use list. -/
def muxSpecList (reset resetValue : Expr) : List UseTree → List UseTree
  | [] => []
  | t :: rest => muxSpecTree reset resetValue t :: muxSpecList reset resetValue rest

end

/-- Reset-carrying register as the RegReset handler sees it: type, clock,
    reset signal and value, and the uses of its result. -/
structure RegR where
  ty : FTy
  clock : Expr
  resetSignal : Expr
  resetValue : Expr
  uses : List UseTree

/-- RegReset handler of `implementAsyncReset` (lines 1514-1537): an
    already-async reset is left untouched (the verifier call is not
    modelled); otherwise the sync reset is folded into muxes on all
    drivers via `insertResetMux`, and the register is reassigned the
    module's actual reset as reset signal and a fresh zero of its type as
    reset value. -/
def handleRegReset (actualReset : Expr) (r : RegR) : RegR :=
  if r.resetSignal.ty = FTy.asyncReset then r
  else
    { ty := r.ty, clock := r.clock,
      resetSignal := actualReset,
      resetValue := createZeroValue r.ty,
      uses := (insertResetMuxList r.resetSignal r.resetValue r.uses).1 }

mutual

theorem insertResetMux_spec (reset resetValue : Expr) (t : UseTree) :
    (insertResetMux reset resetValue t).1 = muxSpecTree reset resetValue t := by
  match t with
  | .connTo src => rfl
  | .pconnTo src => rfl
  | .connFrom => rfl
  | .subfield f uses =>
    rw [insertResetMux, muxSpecTree]
    rw [insertResetMuxList_spec reset (.subfield resetValue f) uses]
  | .subindex i uses =>
    rw [insertResetMux, muxSpecTree]
    rw [insertResetMuxList_spec reset (.subindex resetValue i) uses]
  | .subaccess i uses =>
    rw [insertResetMux, muxSpecTree]
    rw [insertResetMuxList_spec reset (.subaccess resetValue i) uses]
  | .otherUse => rfl

theorem insertResetMuxList_spec (reset resetValue : Expr) (ts : List UseTree) :
    (insertResetMuxList reset resetValue ts).1 = muxSpecList reset resetValue ts := by
  match ts with
  | [] => rfl
  | t :: rest =>
    rw [insertResetMuxList, muxSpecList]
    rw [insertResetMux_spec reset resetValue t,
      insertResetMuxList_spec reset resetValue rest]

end

theorem muxSpecList_eq_map (reset resetValue : Expr) (ts : List UseTree) :
    muxSpecList reset resetValue ts = ts.map (muxSpecTree reset resetValue) := by
  induction ts with
  | nil => rfl
  | cons t rest ih => rw [muxSpecList, List.map_cons, ih]

theorem exprTy_createZeroValue (ty : FTy) : (createZeroValue ty).ty = ty := by
  cases ty <;> rfl

/-- C7. A register with a sync (`uint<1>`) reset is rewritten so that
    every connect or partial connect driving it (through any chain of
    subfield/subindex/subaccess ops) has its source wrapped in
    `mux(original reset signal, correspondingly projected original reset
    value, original source)`, and the register itself gets the module's
    actual reset as reset signal and a fresh zero value of its own type as
    reset value. -/
theorem claim_C7_sync_reset_fold (actualReset : Expr) (r : RegR)
    (hsync : r.resetSignal.ty = FTy.uint 1) :
    handleRegReset actualReset r =
      { ty := r.ty, clock := r.clock,
        resetSignal := actualReset,
        resetValue := createZeroValue r.ty,
        uses := r.uses.map (muxSpecTree r.resetSignal r.resetValue) } ∧
    (createZeroValue r.ty).ty = r.ty := by
  constructor
  · rw [handleRegReset, if_neg (by rw [hsync]; intro h; cases h)]
    rw [insertResetMuxList_spec, muxSpecList_eq_map]
  · exact exprTy_createZeroValue r.ty

/-- Closed instance of claim C7: a `uint<8>` register with sync reset
    `val 2` and reset value `val 3`, driven by one connect from `val 4`;
    the driver is mux-wrapped and the register is reassigned the async
    `val 0` and the zero constant. -/
theorem claim_C7_sync_reset_fold_witness :
    handleRegReset (.val 0 FTy.asyncReset)
        ⟨FTy.uint 8, .val 1 FTy.clock, .val 2 (FTy.uint 1), .val 3 (FTy.uint 8),
          [.connTo (.val 4 (FTy.uint 8))]⟩ =
      { ty := FTy.uint 8, clock := .val 1 FTy.clock,
        resetSignal := .val 0 FTy.asyncReset,
        resetValue := createZeroValue (FTy.uint 8),
        uses := [UseTree.connTo (.val 4 (FTy.uint 8))].map
          (muxSpecTree (.val 2 (FTy.uint 1)) (.val 3 (FTy.uint 8))) } ∧
    (createZeroValue (FTy.uint 8)).ty = FTy.uint 8 :=
  claim_C7_sync_reset_fold (.val 0 FTy.asyncReset)
    ⟨FTy.uint 8, .val 1 FTy.clock, .val 2 (FTy.uint 1), .val 3 (FTy.uint 8),
      [.connTo (.val 4 (FTy.uint 8))]⟩ (by decide)

/-- Modelled from the spec: operations of a module body that the
    materialization walk visits — reset-less registers, reset-carrying
    registers, connects, and any other value-producing op with one
    operand. Instances are handled by a separate branch of the source and
    are not modelled here. -/
inductive MOp where
  | reg : Nat → FTy → Expr → MOp
  | regReset : Nat → FTy → Expr → Expr → Expr → MOp
  | connect : Expr → Expr → MOp
  | node : Nat → Expr → MOp
deriving DecidableEq

/-- Substitution of value ids, modelling `replaceAllUsesWith`: rewrite
    each `val id` whose id has an entry in the pair list to the entry's
    replacement id. -/
def substExpr (sub : List (Nat × Nat)) : Expr → Expr
  | .val v t =>
    match sub.lookup v with
    | some n => .val n t
    | none => .val v t
  | .subfield e f => .subfield (substExpr sub e) f
  | .subindex e i => .subindex (substExpr sub e) i
  | .subaccess e i => .subaccess (substExpr sub e) (substExpr sub i)
  | .mux s a b => .mux (substExpr sub s) (substExpr sub a) (substExpr sub b)
  | .asClock e => .asClock (substExpr sub e)
  | .asAsyncReset e => .asAsyncReset (substExpr sub e)
  | .const t v => .const t v
  | .invalid t => .invalid t
  | .wire t => .wire t

/-- Substitution applied to the operands of an op. -/
def substOp (sub : List (Nat × Nat)) : MOp → MOp
  | .reg id ty c => .reg id ty (substExpr sub c)
  | .regReset id ty c rs rv =>
    .regReset id ty (substExpr sub c) (substExpr sub rs) (substExpr sub rv)
  | .connect d s => .connect (substExpr sub d) (substExpr sub s)
  | .node id e => .node id (substExpr sub e)

/-- Does the expression use the value id. -/
def exprUsesId (id : Nat) : Expr → Bool
  | .val v _ => v == id
  | .subfield e _ => exprUsesId id e
  | .subindex e _ => exprUsesId id e
  | .subaccess e i => exprUsesId id e || exprUsesId id i
  | .mux s a b => exprUsesId id s || exprUsesId id a || exprUsesId id b
  | .asClock e => exprUsesId id e
  | .asAsyncReset e => exprUsesId id e
  | .const _ _ => false
  | .invalid _ => false
  | .wire _ => false

/-- Does the op use the value id among its operands. -/
def MOp.usesId (id : Nat) : MOp → Bool
  | .reg _ _ c => exprUsesId id c
  | .regReset _ _ c rs rv =>
    exprUsesId id c || exprUsesId id rs || exprUsesId id rv
  | .connect d s => exprUsesId id d || exprUsesId id s
  | .node _ e => exprUsesId id e

/-- Is the op a reset-less register. -/
def MOp.isReg : MOp → Bool
  | .reg _ _ _ => true
  | _ => false

/-- Actual reset of a module, lines 1388-1395: the freshly inserted
    argument-0 port of `AsyncResetType` when the plan has a new port name,
    otherwise the existing value recorded by planning; `none` (domain
    without reset, or reset rooted elsewhere without local value) makes
    the walk skip the module. -/
def actualResetOf (plan : ImplPlan) : Option Expr :=
  match plan.newPortName with
  | some _ => some (.val 0 FTy.asyncReset)
  | none => plan.existingValue.map (fun r => .val (r.argIdx.getD 0) r.ty)

/-- Op walk of `implementAsyncReset` (lines 1410-1418 with the handlers of
    lines 1502-1537): a reset-less register is replaced in place by a
    fresh `RegResetOp` on the actual reset and a zero of its type
    (preceded by the zero's connects), recording the use redirection from
    the old result to the fresh one; a reset-carrying register keeps an
    async reset and otherwise is reassigned the actual reset and a zero
    (its driver muxes are modelled at the use-tree level by
    `handleRegReset`); everything else is kept. Returns the new op list,
    the collected use redirections, and the next fresh id. -/
def implWalk (actualReset : Expr) : List MOp → Nat → List MOp × List (Nat × Nat) × Nat
  | [], fresh => ([], [], fresh)
  | .reg id ty clock :: rest, fresh =>
    let r := implWalk actualReset rest (fresh + 1)
    ((createZeroConnects ty).map (fun c => MOp.connect c.1 c.2) ++
        MOp.regReset fresh ty clock actualReset (createZeroValue ty) :: r.1,
      (id, fresh) :: r.2.1, r.2.2)
  | .regReset id ty c rs rv :: rest, fresh =>
    let r := implWalk actualReset rest fresh
    if rs.ty = FTy.asyncReset then
      (.regReset id ty c rs rv :: r.1, r.2.1, r.2.2)
    else
      (.regReset id ty c actualReset (createZeroValue ty) :: r.1, r.2.1, r.2.2)
  | op :: rest, fresh =>
    let r := implWalk actualReset rest fresh
    (op :: r.1, r.2.1, r.2.2)

/-- Module-level materialization (lines 1375-1427): skip without an
    actual reset, otherwise walk the ops and apply the collected use
    redirections everywhere (`replaceAllUsesWith`; old registers are
    erased, so only the walk's output remains). -/
def implementAsyncReset (plan : ImplPlan) (ops : List MOp) (fresh : Nat) : List MOp :=
  match actualResetOf plan with
  | none => ops
  | some ar =>
    let r := implWalk ar ops fresh
    r.1.map (substOp r.2.1)


theorem lookup_mem {l : List (Nat × Nat)} {k v : Nat} (h : l.lookup k = some v) :
    (k, v) ∈ l := by
  induction l with
  | nil => cases h
  | cons p rest ih =>
    obtain ⟨a, b⟩ := p
    rw [List.lookup] at h
    cases hk : (k == a) with
    | true =>
      rw [hk] at h
      injection h with h
      subst h
      have hka : k = a := by simpa using hk
      subst hka
      exact List.mem_cons_self _ _
    | false =>
      rw [hk] at h
      exact List.mem_cons_of_mem _ (ih h)

theorem implWalk_pairs_ge (ar : Expr) (ops : List MOp) :
    ∀ fresh, ∀ p ∈ (implWalk ar ops fresh).2.1, fresh ≤ p.2 := by
  induction ops with
  | nil =>
    intro fresh p hp
    simp [implWalk] at hp
  | cons op rest ih =>
    intro fresh p hp
    cases op with
    | reg id ty clock =>
      simp only [implWalk] at hp
      rcases List.mem_cons.mp hp with rfl | hp2
      · exact Nat.le_refl fresh
      · exact Nat.le_of_succ_le (ih (fresh + 1) p hp2)
    | regReset id ty c rs rv =>
      simp only [implWalk] at hp
      split at hp
      · exact ih fresh p hp
      · exact ih fresh p hp
    | connect d s =>
      simp only [implWalk] at hp
      exact ih fresh p hp
    | node id e =>
      simp only [implWalk] at hp
      exact ih fresh p hp

theorem implWalk_lookup_reg (ar : Expr) (ops : List MOp) :
    ∀ fresh id ty clock, MOp.reg id ty clock ∈ ops →
      ∃ n, ((implWalk ar ops fresh).2.1).lookup id = some n ∧ fresh ≤ n := by
  induction ops with
  | nil =>
    intro fresh id ty clock h
    cases h
  | cons op rest ih =>
    intro fresh id ty clock h
    rcases List.mem_cons.mp h with heq | h2
    · subst heq
      refine ⟨fresh, ?_, Nat.le_refl fresh⟩
      simp only [implWalk]
      exact List.lookup_cons_self
    · cases op with
      | reg idb tyb clockb =>
        by_cases hid : id = idb
        · subst hid
          refine ⟨fresh, ?_, Nat.le_refl fresh⟩
          simp only [implWalk]
          exact List.lookup_cons_self
        · obtain ⟨n, hn, hge⟩ := ih (fresh + 1) id ty clock h2
          refine ⟨n, ?_, by omega⟩
          simp only [implWalk]
          rw [List.lookup]
          have hbeq : (id == idb) = false := by simpa using hid
          simp only [hbeq]
          exact hn
      | regReset idb tyb cb rsb rvb =>
        obtain ⟨n, hn, hge⟩ := ih fresh id ty clock h2
        refine ⟨n, ?_, hge⟩
        simp only [implWalk]
        split
        · exact hn
        · exact hn
      | connect d src =>
        obtain ⟨n, hn, hge⟩ := ih fresh id ty clock h2
        exact ⟨n, by simpa only [implWalk] using hn, hge⟩
      | node idb e =>
        obtain ⟨n, hn, hge⟩ := ih fresh id ty clock h2
        exact ⟨n, by simpa only [implWalk] using hn, hge⟩

theorem implWalk_reg_replaced (ar : Expr) (ops : List MOp) :
    ∀ fresh id ty clock, MOp.reg id ty clock ∈ ops →
      ∃ n, (id, n) ∈ (implWalk ar ops fresh).2.1 ∧
        MOp.regReset n ty clock ar (createZeroValue ty) ∈ (implWalk ar ops fresh).1 := by
  induction ops with
  | nil =>
    intro fresh id ty clock h
    cases h
  | cons op rest ih =>
    intro fresh id ty clock h
    rcases List.mem_cons.mp h with heq | h2
    · subst heq
      refine ⟨fresh, ?_, ?_⟩
      · simp [implWalk]
      · simp only [implWalk]
        exact List.mem_append_right _ (List.mem_cons_self _ _)
    · cases op with
      | reg idb tyb clockb =>
        obtain ⟨n, hn, hm⟩ := ih (fresh + 1) id ty clock h2
        refine ⟨n, ?_, ?_⟩
        · simp only [implWalk]
          exact List.mem_cons_of_mem _ hn
        · simp only [implWalk]
          exact List.mem_append_right _ (List.mem_cons_of_mem _ hm)
      | regReset idb tyb cb rsb rvb =>
        obtain ⟨n, hn, hm⟩ := ih fresh id ty clock h2
        refine ⟨n, ?_, ?_⟩
        · simp only [implWalk]
          split
          · exact hn
          · exact hn
        · simp only [implWalk]
          split
          · exact List.mem_cons_of_mem _ hm
          · exact List.mem_cons_of_mem _ hm
      | connect d src =>
        obtain ⟨n, hn, hm⟩ := ih fresh id ty clock h2
        exact ⟨n, by simpa only [implWalk] using hn,
          by simp only [implWalk]; exact List.mem_cons_of_mem _ hm⟩
      | node idb e =>
        obtain ⟨n, hn, hm⟩ := ih fresh id ty clock h2
        exact ⟨n, by simpa only [implWalk] using hn,
          by simp only [implWalk]; exact List.mem_cons_of_mem _ hm⟩

theorem implWalk_no_reg (ar : Expr) (ops : List MOp) :
    ∀ fresh op, op ∈ (implWalk ar ops fresh).1 → MOp.isReg op = false := by
  induction ops with
  | nil =>
    intro fresh op hop
    simp [implWalk] at hop
  | cons op0 rest ih =>
    intro fresh op hop
    cases op0 with
    | reg id ty clock =>
      simp only [implWalk] at hop
      rcases List.mem_append.mp hop with hz | hr
      · obtain ⟨c, _, rfl⟩ := List.mem_map.mp hz
        rfl
      · rcases List.mem_cons.mp hr with rfl | hm
        · rfl
        · exact ih (fresh + 1) op hm
    | regReset id ty c rs rv =>
      simp only [implWalk] at hop
      split at hop
      · rcases List.mem_cons.mp hop with rfl | hm
        · rfl
        · exact ih fresh op hm
      · rcases List.mem_cons.mp hop with rfl | hm
        · rfl
        · exact ih fresh op hm
    | connect d src =>
      simp only [implWalk] at hop
      rcases List.mem_cons.mp hop with rfl | hm
      · rfl
      · exact ih fresh op hm
    | node id e =>
      simp only [implWalk] at hop
      rcases List.mem_cons.mp hop with rfl | hm
      · rfl
      · exact ih fresh op hm

theorem substOp_isReg (sub : List (Nat × Nat)) (op : MOp) :
    MOp.isReg (substOp sub op) = MOp.isReg op := by
  cases op <;> rfl

theorem substExpr_createZeroValue (sub : List (Nat × Nat)) (ty : FTy) :
    substExpr sub (createZeroValue ty) = createZeroValue ty := by
  cases ty <;> rfl

theorem substExpr_kills (sub : List (Nat × Nat)) (id n : Nat)
    (hl : sub.lookup id = some n) (hno : ∀ p ∈ sub, p.2 ≠ id) :
    ∀ e, exprUsesId id (substExpr sub e) = false := by
  intro e
  induction e with
  | val v t =>
    rw [substExpr]
    rcases hv : sub.lookup v with _ | m
    · rw [exprUsesId, beq_eq_false_iff_ne]
      intro heq
      rw [heq] at hv
      rw [hv] at hl
      cases hl
    · rw [exprUsesId, beq_eq_false_iff_ne]
      intro heq
      exact hno (v, m) (lookup_mem hv) heq
  | subfield e f ih => rw [substExpr, exprUsesId]; exact ih
  | subindex e i ih => rw [substExpr, exprUsesId]; exact ih
  | subaccess e i ihe ihi => rw [substExpr, exprUsesId, ihe, ihi]; rfl
  | mux a b c iha ihb ihc => rw [substExpr, exprUsesId, iha, ihb, ihc]; rfl
  | asClock e ih => rw [substExpr, exprUsesId]; exact ih
  | asAsyncReset e ih => rw [substExpr, exprUsesId]; exact ih
  | const t v => rfl
  | invalid t => rfl
  | wire t => rfl

theorem substOp_kills (sub : List (Nat × Nat)) (id n : Nat)
    (hl : sub.lookup id = some n) (hno : ∀ p ∈ sub, p.2 ≠ id) :
    ∀ op, MOp.usesId id (substOp sub op) = false := by
  intro op
  cases op <;>
    simp [substOp, MOp.usesId, substExpr_kills sub id n hl hno]

/-- C8 (counterexample). A module whose domain reset is an existing
    `uint<1>`-typed value: the reset-less `uint<8>` register is replaced
    by a reset-register on that value with a zero reset value and its use
    redirected, but the new register's reset signal has type `uint<1>`,
    not the async-reset type the claim asserts. -/
theorem claim_C8_counterexample :
    actualResetOf
        { existingValue := some ⟨"rst", FTy.uint 1, some 3⟩,
          existingPort := some 3 } =
      some (.val 3 (FTy.uint 1)) ∧
    implementAsyncReset
        { existingValue := some ⟨"rst", FTy.uint 1, some 3⟩,
          existingPort := some 3 }
        [.reg 10 (FTy.uint 8) (.val 1 FTy.clock), .node 11 (.val 10 (FTy.uint 8))]
        20 =
      [.regReset 20 (FTy.uint 8) (.val 1 FTy.clock) (.val 3 (FTy.uint 1))
          (.const (FTy.uint 8) 0),
        .node 11 (.val 20 (FTy.uint 8))] ∧
    Expr.ty (.val 3 (FTy.uint 1)) ≠ FTy.asyncReset := by
  decide

/-- C8 (amended). In a module with an actual reset, materialization leaves
    no reset-less register: each one is replaced by a reset-register of
    the same type and clock whose reset signal is the module's actual
    reset and whose reset value is a fresh zero of the register's type,
    every use of the old register is redirected (its id occurs in no
    remaining op), and the actual reset is the async-typed inserted port
    whenever the plan carries a new port name — with no async-type
    guarantee when an existing value is reused. -/
theorem claim_C8_reg_replacement (plan : ImplPlan) (ops : List MOp) (fresh : Nat)
    (ar : Expr)
    (har : actualResetOf plan = some ar)
    (hsub : substExpr (implWalk ar ops fresh).2.1 ar = ar)
    (hlow : ∀ id ty clock, MOp.reg id ty clock ∈ ops → id < fresh) :
    (∀ op ∈ implementAsyncReset plan ops fresh, MOp.isReg op = false) ∧
    (∀ id ty clock, MOp.reg id ty clock ∈ ops →
      ∃ n, (id, n) ∈ (implWalk ar ops fresh).2.1 ∧
        MOp.regReset n ty (substExpr (implWalk ar ops fresh).2.1 clock) ar
            (createZeroValue ty) ∈
          implementAsyncReset plan ops fresh) ∧
    (∀ id ty clock, MOp.reg id ty clock ∈ ops →
      ∀ op ∈ implementAsyncReset plan ops fresh, MOp.usesId id op = false) ∧
    (∀ nm, plan.newPortName = some nm → ar = Expr.val 0 FTy.asyncReset) := by
  have hfin : implementAsyncReset plan ops fresh =
      (implWalk ar ops fresh).1.map (substOp (implWalk ar ops fresh).2.1) := by
    rw [implementAsyncReset, har]
  refine ⟨?_, ?_, ?_, ?_⟩
  · intro op hop
    rw [hfin] at hop
    obtain ⟨op0, hop0, rfl⟩ := List.mem_map.mp hop
    rw [substOp_isReg]
    exact implWalk_no_reg ar ops fresh op0 hop0
  · intro id ty clock h
    obtain ⟨n, hn, hm⟩ := implWalk_reg_replaced ar ops fresh id ty clock h
    refine ⟨n, hn, ?_⟩
    rw [hfin]
    refine List.mem_map.mpr ⟨_, hm, ?_⟩
    rw [substOp, hsub, substExpr_createZeroValue]
  · intro id ty clock h op hop
    rw [hfin] at hop
    obtain ⟨op0, hop0, rfl⟩ := List.mem_map.mp hop
    obtain ⟨n, hl, hge⟩ := implWalk_lookup_reg ar ops fresh id ty clock h
    have hid := hlow id ty clock h
    refine substOp_kills _ id n hl ?_ op0
    intro p hp
    have := implWalk_pairs_ge ar ops fresh p hp
    omega
  · intro nm hnm
    unfold actualResetOf at har
    rw [hnm] at har
    injection har with har
    exact har.symm

/-- Closed instance of claim C8: a plan inserting a new async port, a
    reset-less `uint<8>` register and a node using it; the register is
    replaced by a reset-register on the async port with the zero constant
    and the node is redirected to the fresh result. -/
theorem claim_C8_reg_replacement_witness :
    (∀ op ∈ implementAsyncReset { newPortName := some "rst" }
        [.reg 10 (FTy.uint 8) (.val 1 FTy.clock), .node 11 (.val 10 (FTy.uint 8))]
        20, MOp.isReg op = false) ∧
    (∀ id ty clock, MOp.reg id ty clock ∈
        ([.reg 10 (FTy.uint 8) (.val 1 FTy.clock),
          .node 11 (.val 10 (FTy.uint 8))] : List MOp) →
      ∃ n, (id, n) ∈ (implWalk (.val 0 FTy.asyncReset)
          [.reg 10 (FTy.uint 8) (.val 1 FTy.clock),
            .node 11 (.val 10 (FTy.uint 8))] 20).2.1 ∧
        MOp.regReset n ty
            (substExpr (implWalk (.val 0 FTy.asyncReset)
              [.reg 10 (FTy.uint 8) (.val 1 FTy.clock),
                .node 11 (.val 10 (FTy.uint 8))] 20).2.1 clock)
            (.val 0 FTy.asyncReset) (createZeroValue ty) ∈
          implementAsyncReset { newPortName := some "rst" }
            [.reg 10 (FTy.uint 8) (.val 1 FTy.clock),
              .node 11 (.val 10 (FTy.uint 8))] 20) ∧
    (∀ id ty clock, MOp.reg id ty clock ∈
        ([.reg 10 (FTy.uint 8) (.val 1 FTy.clock),
          .node 11 (.val 10 (FTy.uint 8))] : List MOp) →
      ∀ op ∈ implementAsyncReset { newPortName := some "rst" }
          [.reg 10 (FTy.uint 8) (.val 1 FTy.clock),
            .node 11 (.val 10 (FTy.uint 8))] 20,
        MOp.usesId id op = false) ∧
    (∀ nm, ({ newPortName := some "rst" } : ImplPlan).newPortName = some nm →
      (.val 0 FTy.asyncReset : Expr) = Expr.val 0 FTy.asyncReset) :=
  claim_C8_reg_replacement { newPortName := some "rst" }
    [.reg 10 (FTy.uint 8) (.val 1 FTy.clock), .node 11 (.val 10 (FTy.uint 8))]
    20 (.val 0 FTy.asyncReset) (by decide) (by decide)
    (by
      intro id ty clock h
      rcases List.mem_cons.mp h with heq | h2
      · injection heq with h1 h2 h3
        omega
      · rcases List.mem_cons.mp h2 with heq | h3
        · cases heq
        · cases h3)


end InferResets
